import Mathlib

/-!
c019/ping: ICMP echo codec and probe statistics

A shallow embedding of `icmp/icmp.go` (package `icmp`): the echo codec
(`marshal`, `parseICMPMessage`, `parseICMPEcho`, `ipPayload`), the statistics
loop of `CheckPing`, whose calls of `sendPackage` are given by their results,
and `sendPackage` itself over a description of what the network does; and of
the dispatcher of `main.go` with its counter `Int64Mut`, as a step relation.

Modelling conventions

* A Go `[]byte` is a `List Nat` whose elements are below 256 (`IsBytes`).
* A Go `int` is an `Int`; no operation of the modelled code can leave the
  64-bit range, so no wrap-around is applied to it.
* The `uint32` accumulator of `marshal` is a `Nat` reduced modulo `2 ^ 32`
  after every addition.
* A Go function that can return an `error` or abort with a run-time panic
  returns `Except Fault _`.
* `float64` durations are exact rationals.
-/

deriving instance DecidableEq for Except

namespace Ping

/-! ### Faults -/

/-- Ways in which a modelled Go function can fail to produce a value: a returned
`error`, or one of the two run-time panics of indexing and slicing.  `outOfFuel`
is never produced by the Go program: it marks a loop model that was started
with too few iterations. -/
inductive Fault where
  | error (msg : String)
  | indexOutOfRange
  | sliceOutOfRange
  | outOfFuel
  deriving DecidableEq, Repr

/-- A Go byte slice. -/
abbrev Bytes := List Nat

/-- Every element fits in a byte. -/
def IsBytes (b : Bytes) : Prop := ∀ x ∈ b, x < 256

/-- The Go conversion `byte(x)` of an `int`: the low eight bits. -/
def byte (x : Int) : Nat := (x % 256).toNat

/-- The Go index expression `b[i]`, which panics when `i` is out of range. -/
def index (b : Bytes) (i : Nat) : Except Fault Nat :=
  match b.get? i with
  | some x => .ok x
  | none => .error .indexOutOfRange

/-- The Go builtin `copy(dst, src)`: the contents of `dst` afterwards. -/
def copy (dst src : Bytes) : Bytes :=
  src.take (min dst.length src.length) ++ dst.drop (min dst.length src.length)

/-- The Go builtin `make([]byte, n)`. -/
def make (n : Nat) : Bytes := List.replicate n 0

/-! ### Data model (icmp.go, lines 12-39) -/

def icmpv4EchoRequest : Int := 8
def icmpv4EchoReply : Int := 0
def icmpv6EchoRequest : Int := 128
def icmpv6EchoReply : Int := 129

/-- The struct `icmpEcho`. -/
structure icmpEcho where
  ID : Int
  Seq : Int
  Data : Bytes
  deriving DecidableEq, Repr

/-- The struct `icmpMessage`; the field `Type` is spelled `Typ`.  `Body` is
the interface value, `none` standing for `nil`; `icmpEcho` is its only
implementation. -/
structure icmpMessage where
  Typ : Int
  Code : Int
  ID : Int
  Seq : Int
  Checksum : Int
  Body : Option icmpEcho
  deriving DecidableEq, Repr

/-! ### Echo body (icmp.go, lines 186-209) -/

/-- The method `(*icmpEcho).len`. -/
def icmpEcho.len (p : icmpEcho) : Nat := 4 + p.Data.length

/-- The method `(*icmpEcho).marshal`. -/
def icmpEcho.marshal (p : icmpEcho) : Except Fault Bytes :=
  let b := make (4 + p.Data.length)
  let b := (b.set 0 (byte (p.ID >>> (8 : Nat)))).set 1 (byte (Int.land p.ID 0xff))
  let b := (b.set 2 (byte (p.Seq >>> (8 : Nat)))).set 3 (byte (Int.land p.Seq 0xff))
  let b := b.take 4 ++ copy (b.drop 4) p.Data
  .ok b

/-- The function `parseICMPEcho`. -/
def parseICMPEcho (b : Bytes) : Except Fault icmpEcho :=
  let bodylen := b.length
  index b 0 >>= fun b0 =>
  index b 1 >>= fun b1 =>
  index b 2 >>= fun b2 =>
  index b 3 >>= fun b3 =>
  let p : icmpEcho :=
    { ID := ((b0 <<< 8 ||| b1 : Nat) : Int), Seq := ((b2 <<< 8 ||| b3 : Nat) : Int), Data := [] }
  if bodylen > 4 then
    .ok { p with Data := copy (make (bodylen - 4)) (b.drop 4) }
  else
    .ok p

/-! ### Message encoding (icmp.go, lines 138-165) -/

/-- The one's complement `^s` of a `uint32`. -/
def not32 (s : Nat) : Nat := 2 ^ 32 - 1 - s % 2 ^ 32

/-- The summation loop of `marshal` (lines 153-155):
`for i := 0; i < csumcv; i += 2 { s += uint32(b[i+1])<<8 | uint32(b[i]) }`,
started at index `i` with accumulator `s`; the first argument bounds the
number of iterations. -/
def csumLoop (b : Bytes) (csumcv : Nat) : Nat → Nat → Nat → Except Fault Nat
  | 0, i, s => if i < csumcv then .error .outOfFuel else .ok s
  | fuel + 1, i, s =>
    if i < csumcv then
      index b (i + 1) >>= fun hi =>
      index b i >>= fun lo =>
      csumLoop b csumcv fuel (i + 2) ((s + (hi <<< 8 ||| lo)) % 2 ^ 32)
    else
      .ok s

/-- The checksum block of `marshal` (lines 151-164), which `marshal` enters
with its four header bytes already in `b`. -/
def marshalChecksum (b : Bytes) : Except Fault Bytes :=
  let csumcv := b.length - 1
  csumLoop b csumcv b.length 0 0 >>= fun s =>
  (if csumcv &&& 1 = 0 then
    index b csumcv >>= fun x => .ok ((s + x) % 2 ^ 32)
  else
    .ok s) >>= fun s =>
  let s := ((s >>> 16) + (s &&& 0xffff)) % 2 ^ 32
  let s := (s + (s >>> 16)) % 2 ^ 32
  index b 2 >>= fun b2 =>
  let b := b.set 2 (b2 ^^^ ((not32 s &&& 0xff) % 256))
  index b 3 >>= fun b3 =>
  let b := b.set 3 (b3 ^^^ ((not32 s >>> 8) % 256))
  .ok b

/-- The method `(*icmpMessage).marshal`. -/
def icmpMessage.marshal (m : icmpMessage) : Except Fault Bytes :=
  let b : Bytes := [byte m.Typ, byte m.Code, 0, 0]
  (match m.Body with
    | some p =>
      if p.len ≠ 0 then
        p.marshal >>= fun mb => .ok (b ++ mb)
      else
        .ok b
    | none => .ok b) >>= fun b =>
  if m.Typ = icmpv6EchoRequest ∨ m.Typ = icmpv6EchoReply then
    .ok b
  else
    marshalChecksum b

/-! ### Message decoding (icmp.go, lines 167-184) -/

/-- The function `parseICMPMessage`. -/
def parseICMPMessage (b : Bytes) : Except Fault icmpMessage :=
  let msglen := b.length
  if msglen < 4 then
    .error (.error "Mensagem muito curta")
  else
    index b 0 >>= fun b0 =>
    index b 1 >>= fun b1 =>
    index b 2 >>= fun b2 =>
    index b 3 >>= fun b3 =>
    index b 4 >>= fun b4 =>
    index b 5 >>= fun b5 =>
    index b 7 >>= fun b7 =>
    let m : icmpMessage :=
      { Typ := (b0 : Int), Code := (b1 : Int), Checksum := ((b2 <<< 8 ||| b3 : Nat) : Int),
        ID := ((b4 <<< 8 ||| b5 : Nat) : Int), Seq := (b7 : Int), Body := none }
    if msglen > 4 then
      if m.Typ = icmpv4EchoRequest ∨ m.Typ = icmpv4EchoReply ∨
          m.Typ = icmpv6EchoRequest ∨ m.Typ = icmpv6EchoReply then
        parseICMPEcho (b.drop 4) >>= fun body => .ok { m with Body := some body }
      else
        .ok m
    else
      .ok m

/-! ### IP header stripping (icmp.go, lines 211-217) -/

/-- The function `ipPayload`; the slice expression `b[hdrlen:]` panics when
`hdrlen` exceeds `len(b)`. -/
def ipPayload (b : Bytes) : Except Fault Bytes :=
  if b.length < 20 then
    .ok b
  else
    index b 0 >>= fun b0 =>
    let hdrlen := (b0 &&& 0x0f) <<< 2
    if hdrlen > b.length then
      .error .sliceOutOfRange
    else
      .ok (b.drop hdrlen)

/-! ### Probe statistics (icmp.go, lines 41-79) -/

/-- What one call `sendPackage(ip, timeout, codigo, i)` hands back to
`CheckPing`: the elapsed time in milliseconds, or an error with its text. -/
inductive SendResult where
  | ok (timePackage : ℚ)
  | err (text : String)
  deriving DecidableEq

/-- The Go function `strings.Contains`. -/
def stringsContains (s substr : String) : Bool := decide (substr.data <:+: s.data)

/-- The Go conversion of a `float64` to an integer type, which discards the
fractional part. -/
def truncate (q : ℚ) : Int := if 0 ≤ q then ⌊q⌋ else ⌈q⌉

/-- The local variables of `CheckPing` that its loop updates; `pauses` records
the arguments of the successive `time.Sleep` calls, in nanoseconds. -/
structure PingState where
  pkgLoss : Int
  pkgReceived : Int
  minTts : ℚ
  maxTts : ℚ
  mediaTts : ℚ
  pauses : List Int
  deriving DecidableEq

/-- The values of the variables at the `var` block of `CheckPing`. -/
def PingState.init : PingState :=
  { pkgLoss := 0, pkgReceived := 0, minTts := 0, maxTts := 0, mediaTts := 0, pauses := [] }

/-- The text built by the two `fmt.Sprintf` calls of `CheckPing`, as the values
it is formatted from: sent, received, lost, and the average when it is shown. -/
structure Summary where
  enviado : Int
  recebido : Int
  perdido : Int
  media : Option ℚ
  deriving DecidableEq

/-- The results of `CheckPing` when its `error` is `nil`. -/
structure PingResult where
  msg : Summary
  pkgLoss : Int
  minTts : ℚ
  mediaTts : ℚ
  maxTts : ℚ
  deriving DecidableEq

/-- The loop of `CheckPing` (lines 51-69), `for i := 1; i <= numPkg; i++`,
entered at `i` with the variables in `st`; `send i` is the result of
`sendPackage(ip, timeout, codigo, i)`.  The first argument bounds the number
of iterations. -/
def checkLoop (send : Int → SendResult) (numPkg : Int) :
    Nat → Int → PingState → Except Fault PingState
  | 0, i, st => if i ≤ numPkg then .error .outOfFuel else .ok st
  | fuel + 1, i, st =>
    if i ≤ numPkg then
      match send i with
      | .err text =>
        if stringsContains text "operation not permitted" then
          .error (.error "Operação não permitida!")
        else
          checkLoop send numPkg fuel (i + 1) { st with pkgLoss := st.pkgLoss + 1 }
      | .ok timePackage =>
        checkLoop send numPkg fuel (i + 1)
          { pkgLoss := st.pkgLoss
            pkgReceived := st.pkgReceived + 1
            minTts := if timePackage < st.minTts ∨ i = 1 then timePackage else st.minTts
            maxTts := if timePackage > st.maxTts then timePackage else st.maxTts
            mediaTts := st.mediaTts + timePackage
            pauses := st.pauses ++ [1000000000 - truncate timePackage] }
    else
      .ok st

/-- The function `CheckPing`, over the results `send` of its calls of
`sendPackage`. -/
def CheckPing (send : Int → SendResult) (numPkg : Int) : Except Fault PingResult :=
  checkLoop send numPkg numPkg.toNat 1 PingState.init >>= fun st =>
  let mediaTts := if st.pkgReceived > 0 then st.mediaTts / (st.pkgReceived : ℚ) else st.mediaTts
  let msg : Summary :=
    { enviado := numPkg, recebido := st.pkgReceived, perdido := st.pkgLoss,
      media := if st.pkgLoss ≠ numPkg then some mediaTts else none }
  .ok { msg := msg, pkgLoss := st.pkgLoss, minTts := st.minTts, mediaTts := mediaTts,
        maxTts := st.maxTts }

/-- The results of the successive calls of `sendPackage` given as a list:
attempt `i` (counted from 1) gets the `i`-th entry. -/
def replay (os : List SendResult) (i : Int) : SendResult :=
  (os.get? (i - 1).toNat).getD (.err "no further attempt")

/-- The number of calls of `sendPackage` that the loop of `CheckPing` makes when
entered at `i`: one for every iteration, the one that returns at line 55
included.  The first argument bounds the number of iterations. -/
def sendCalls (send : Int → SendResult) (numPkg : Int) : Nat → Int → Nat
  | 0, _ => 0
  | fuel + 1, i =>
    if i ≤ numPkg then
      match send i with
      | .err text =>
        if stringsContains text "operation not permitted" then
          1
        else
          1 + sendCalls send numPkg fuel (i + 1)
      | .ok _ => 1 + sendCalls send numPkg fuel (i + 1)
    else
      0

/-- The number of calls of `sendPackage` in one call of `CheckPing`. -/
def attemptsMade (send : Int → SendResult) (numPkg : Int) : Nat :=
  sendCalls send numPkg numPkg.toNat 1

/-! ### Sending one echo (icmp.go, lines 81-136) -/

/-- One successful `conn.Read(rb)` of the read loop of `sendPackage`: the content
of the buffer `rb` after the call, and the value `float64(time.Now().UnixNano())`
takes when this datagram ends the wait. -/
structure Datagram where
  rb : Bytes
  now : ℚ
  deriving DecidableEq

/-- What the network does during one call of `sendPackage`: the result of
`net.ResolveIPAddr` (its error text, or whether `To4()` of the address is not
`nil`), the error text of `net.Dial` and of `conn.Write` if they fail, the value
of `beginTime`, the successful reads of the loop in order, and the error text
of the read that follows the last of them (the deadline set at line 94 makes
every run of the loop end with such a read, unless it returns before). -/
structure Transport where
  resolve : Except String Bool
  dial : Option String
  write : Option String
  beginTime : ℚ
  incoming : List Datagram
  readError : String

/-- The message `sendPackage` builds at lines 103-111 for the identifier `code`
and the attempt `n`; `dataMsg` is `bytes.Repeat([]byte("[ICMP c019]"), 0)`, the
empty slice. -/
def echoRequest (typ code n : Int) : icmpMessage :=
  let xid := code
  let xseq := n + 1
  let dataMsg : Bytes := []
  { Typ := typ, Code := 0, ID := 0, Seq := 0, Checksum := 0,
    Body := some { ID := xid, Seq := xseq, Data := dataMsg } }

/-- The read loop of `sendPackage` (lines 120-135) over the datagrams still to
come.  The statement `return 0, err` of line 133 is reached with `err == nil`
and so returns the value 0 without error. -/
def readLoop (xid xseq : Int) (beginTime : ℚ) (readError : String) :
    List Datagram → Except Fault ℚ
  | [] => .error (.error readError)
  | d :: rest =>
    match ipPayload d.rb >>= parseICMPMessage with
    | .error f => .error f
    | .ok m =>
      if m.ID = xid ∧ m.Seq = xseq then
        if m.Typ = 0 ∧ m.Code = 0 then
          .ok ((d.now - beginTime) / 1000000)
        else
          .ok 0
      else
        readLoop xid xseq beginTime readError rest

/-- The function `sendPackage`; its arguments `address` and `timeout` act
through the network only and are part of `net`. -/
def sendPackage (net : Transport) (code n : Int) : Except Fault ℚ :=
  match net.resolve with
  | .error e => .error (.error e)
  | .ok isIPv4 =>
    match net.dial with
    | some e => .error (.error e)
    | none =>
      let typ := if isIPv4 then icmpv4EchoRequest else icmpv6EchoRequest
      let xid := code
      let xseq := n + 1
      match (echoRequest typ code n).marshal with
      | .error f => .error f
      | .ok _ =>
        match net.write with
        | some e => .error (.error e)
        | none => readLoop xid xseq net.beginTime net.readError net.incoming

/-- What `CheckPing` sees of a call of `sendPackage`; a panic reaches no
statement of `CheckPing`. -/
def outcome : Except Fault ℚ → Option SendResult
  | .ok t => some (.ok t)
  | .error (.error text) => some (.err text)
  | .error _ => none

/-! ### Dispatcher (main.go, lines 37-99) -/

/-- The struct `Int64Mut`; its mutex makes each of the three methods one
indivisible step. -/
structure Int64Mut where
  count : Int
  deriving DecidableEq

/-- The method `(*Int64Mut).Add`. -/
def Int64Mut.Add (m : Int64Mut) (d : Int) : Int64Mut := { count := m.count + d }

/-- The method `(*Int64Mut).Dec`. -/
def Int64Mut.Dec (m : Int64Mut) : Int64Mut := { count := m.count - 1 }

/-- The method `(*Int64Mut).Status`. -/
def Int64Mut.Status (m : Int64Mut) : Int := m.count

/-- The state of `main` and of the sequences it started: the counter `group`,
the number of lines of the host file not yet admitted, whether `main` has left
the wait loop of line 50 without having reached `group.Add(1)` yet, and the
number of started sequences whose deferred `group.Dec()` has not run. -/
structure Dispatch where
  group : Int64Mut
  hosts : Nat
  passed : Bool
  running : Nat
  deriving DecidableEq

/-- The state at line 44, with `n` hosts to probe. -/
def Dispatch.init (n : Nat) : Dispatch :=
  { group := { count := 0 }, hosts := n, passed := false, running := 0 }

/-- The steps of the dispatcher for the limit `L = *routineMax`: `main` leaves
the wait loop when `group.Status()` differs from `L` (line 50); `main` calls
`group.Add(1)` and starts the sequence (lines 52-54); a running sequence ends
and calls `group.Dec()` (line 64). -/
inductive Step (L : Int) : Dispatch → Dispatch → Prop where
  | leaveWait (s : Dispatch) (hp : s.passed = false) (hh : 0 < s.hosts)
      (hs : s.group.Status ≠ L) : Step L s { s with passed := true }
  | launch (s : Dispatch) (hp : s.passed = true) :
      Step L s { group := s.group.Add 1, hosts := s.hosts - 1, passed := false,
                 running := s.running + 1 }
  | finish (s : Dispatch) (hr : 0 < s.running) :
      Step L s { s with group := s.group.Dec, running := s.running - 1 }

/-- The states the dispatcher can be in, for the limit `L` and `n` hosts. -/
inductive Reachable (L : Int) (n : Nat) : Dispatch → Prop where
  | init : Reachable L n (Dispatch.init n)
  | step (s t : Dispatch) (hs : Reachable L n s) (ht : Step L s t) : Reachable L n t

/-! ### Reference notions used to state the properties -/

/-- The value the `uint32` accumulator of `marshal` holds after the summation
loop and the addition of an odd final byte, for the bytes still to be read
and the accumulator `s` so far. -/
def acc32 : Bytes → Nat → Nat
  | lo :: hi :: rest, s => acc32 rest ((s + (hi <<< 8 ||| lo)) % 2 ^ 32)
  | [x], s => (s + x) % 2 ^ 32
  | [], s => s

/-- The two folding steps of `marshal` (lines 159-160) on the accumulator. -/
def fold32 (s : Nat) : Nat :=
  let s := ((s >>> 16) + (s &&& 0xffff)) % 2 ^ 32
  (s + (s >>> 16)) % 2 ^ 32

/-- The checksum byte `marshal` stores at offset 2 for the accumulator `s`. -/
def csumLo (s : Nat) : Nat := (not32 (fold32 s) &&& 0xff) % 256

/-- The checksum byte `marshal` stores at offset 3 for the accumulator `s`. -/
def csumHi (s : Nat) : Nat := (not32 (fold32 s) >>> 8) % 256

/-- The exact sum of the 16-bit words of a byte sequence read low byte first,
an odd final byte being padded with a zero byte. -/
def wordSumLE : Bytes → Nat
  | lo :: hi :: rest => (hi * 256 + lo) + wordSumLE rest
  | [x] => x
  | [] => 0

/-- The exact sum of the 16-bit words of a byte sequence in network byte order
(high byte first), an odd final byte being padded with a zero byte. -/
def wordSumBE : Bytes → Nat
  | hi :: lo :: rest => (hi * 256 + lo) + wordSumBE rest
  | [x] => x * 256
  | [] => 0

/-- Folding the carries of a sum of 16-bit words back in until it fits in 16
bits (end-around carry). -/
def foldCarries (n : Nat) : Nat :=
  if h : n < 65536 then n else foldCarries (n / 65536 + n % 65536)
termination_by n
decreasing_by omega

/-- The RFC 1071 Internet checksum of a message whose checksum field is zero,
after the words of the specification: the one's complement of the
end-around-carry sum of its big-endian 16-bit words, an odd final byte being
padded with a zero byte. -/
def internetChecksum (b : Bytes) : Nat := 0xFFFF - foldCarries (wordSumBE b)

/-- The elapsed times of the successful attempts, in order. -/
def elapsedTimes : List SendResult → List ℚ
  | [] => []
  | .ok t :: os => t :: elapsedTimes os
  | .err _ :: os => elapsedTimes os

/-- Whether an attempt succeeded. -/
def SendResult.isOk : SendResult → Bool
  | .ok _ => true
  | .err _ => false

/-- Whether an attempt failed with an error that `CheckPing` takes for a
missing permission (line 54). -/
def SendResult.notPermitted : SendResult → Bool
  | .ok _ => false
  | .err text => stringsContains text "operation not permitted"

/-- The number of attempts made on a list of results: all of them, or those up
to the first permission failure. -/
def callsOf : List SendResult → Nat
  | [] => 0
  | o :: os => if o.notPermitted then 1 else 1 + callsOf os

/-- The loop of `CheckPing` read off a list of results: the state after the
attempts numbered `i`, `i + 1`, ... whose results are the entries of the list. -/
def runAttempts : List SendResult → Int → PingState → Except Fault PingState
  | [], _, st => .ok st
  | .err text :: os, i, st =>
    if stringsContains text "operation not permitted" then
      .error (.error "Operação não permitida!")
    else
      runAttempts os (i + 1) { st with pkgLoss := st.pkgLoss + 1 }
  | .ok timePackage :: os, i, st =>
    runAttempts os (i + 1)
      { pkgLoss := st.pkgLoss
        pkgReceived := st.pkgReceived + 1
        minTts := if timePackage < st.minTts ∨ i = 1 then timePackage else st.minTts
        maxTts := if timePackage > st.maxTts then timePackage else st.maxTts
        mediaTts := st.mediaTts + timePackage
        pauses := st.pauses ++ [1000000000 - truncate timePackage] }

/-! ### Auxiliary lemmas: bytes and bit operations -/

theorem ldiff_255 (m : Nat) : Nat.ldiff 255 m = 255 - m % 256 := by
  apply Nat.eq_of_testBit_eq
  intro i
  have h : (255 : Nat) - m % 256 = 2 ^ 8 - (m % 2 ^ 8 + 1) := by norm_num; omega
  rw [Nat.testBit_ldiff, h, Nat.testBit_two_pow_sub_succ (Nat.mod_lt _ (by norm_num)),
    Nat.testBit_mod_two_pow]
  have h2 : (255 : Nat) = 2 ^ 8 - 1 := by norm_num
  rw [h2, Nat.testBit_two_pow_sub_one]
  by_cases hi : i < 8 <;> simp [hi]

theorem land_255 (x : Int) : Int.land x 255 = x % 256 := by
  cases x with
  | ofNat m =>
    show ((m &&& 255 : Nat) : Int) = _
    have : m &&& 255 = m % 256 := Nat.and_pow_two_sub_one_eq_mod m 8
    rw [this]; simp
  | negSucc m =>
    show ((Nat.ldiff 255 m : Nat) : Int) = _
    rw [ldiff_255, Int.negSucc_eq]
    omega

theorem byte_lt (x : Int) : byte x < 256 := by
  unfold byte; omega

theorem byte_land (x : Int) : byte (Int.land x 0xff) = byte x := by
  unfold byte
  rw [land_255]; simp

theorem byte_shift (x : Int) : byte (x >>> (8 : Nat)) = ((x / 256) % 256).toNat := by
  unfold byte
  rw [Int.shiftRight_eq_div_pow]; norm_num

theorem shl_or (hi lo : Nat) (h : lo < 256) : hi <<< 8 ||| lo = hi * 256 + lo := by
  rw [Nat.shiftLeft_eq]
  have := Nat.mul_add_lt_is_or (i := 8) h hi
  rw [Nat.mul_comm] at this
  norm_num at this ⊢
  exact this.symm

theorem index_append (pre : Bytes) (x : Nat) (rest : Bytes) :
    index (pre ++ x :: rest) pre.length = .ok x := by
  have h : (pre ++ x :: rest).get? pre.length = some x := by
    rw [List.get?_eq_getElem?, List.getElem?_append_right (le_refl _)]
    simp
  simp only [index, h]

theorem index_append_succ (pre : Bytes) (x y : Nat) (rest : Bytes) :
    index (pre ++ x :: y :: rest) (pre.length + 1) = .ok y := by
  have h := index_append (pre ++ [x]) y rest
  simpa using h

theorem icmpEcho.marshal_eq (p : icmpEcho) :
    p.marshal =
      .ok ([byte (p.ID >>> (8 : Nat)), byte p.ID, byte (p.Seq >>> (8 : Nat)), byte p.Seq]
        ++ p.Data) := by
  unfold icmpEcho.marshal make copy
  have h : 4 + p.Data.length = p.Data.length + 1 + 1 + 1 + 1 := by omega
  rw [h]
  simp [List.replicate_succ, byte_land]

/-! ### Auxiliary lemmas: the checksum block -/

/-- The loop of `marshal` followed by the odd-byte step, resumed in the middle
of the buffer, computes `acc32` of the bytes still to be read. -/
theorem csumLoop_acc32 (fuel : Nat) : ∀ (pre rest : Bytes) (s : Nat),
    rest.length ≤ fuel → 0 < (pre ++ rest).length → pre.length % 2 = 0 →
    (csumLoop (pre ++ rest) ((pre ++ rest).length - 1) fuel pre.length s >>= fun s =>
      if ((pre ++ rest).length - 1) &&& 1 = 0 then
        index (pre ++ rest) ((pre ++ rest).length - 1) >>= fun x => .ok ((s + x) % 2 ^ 32)
      else .ok s) = .ok (acc32 rest s) := by
  induction fuel with
  | zero =>
    intro pre rest s hf hpos hpre
    have hr : rest = [] := List.length_eq_zero.mp (by omega)
    subst hr
    simp only [List.append_nil] at hpos ⊢
    have h1 : ¬ pre.length < pre.length - 1 := by omega
    have h2 : ¬ (pre.length - 1) &&& 1 = 0 := by rw [Nat.and_one_is_mod]; omega
    rw [csumLoop, if_neg h1]
    show (if (pre.length - 1) &&& 1 = 0 then _ else _) = _
    rw [if_neg h2, acc32]
  | succ n ih =>
    intro pre rest s hf hpos hpre
    match rest, hf, hpos with
    | [], _, hpos =>
      simp only [List.append_nil] at hpos ⊢
      have h1 : ¬ pre.length < pre.length - 1 := by omega
      have h2 : ¬ (pre.length - 1) &&& 1 = 0 := by rw [Nat.and_one_is_mod]; omega
      rw [csumLoop, if_neg h1]
      show (if (pre.length - 1) &&& 1 = 0 then _ else _) = _
      rw [if_neg h2, acc32]
    | [x], _, _ =>
      have hl : (pre ++ [x]).length - 1 = pre.length := by simp
      rw [hl]
      have h2 : pre.length &&& 1 = 0 := by rw [Nat.and_one_is_mod]; omega
      rw [csumLoop, if_neg (lt_irrefl _)]
      show (if pre.length &&& 1 = 0 then _ else _) = _
      rw [if_pos h2, index_append, acc32]
      rfl
    | lo :: hi :: rest, hf, _ =>
      have hl : pre.length < (pre ++ lo :: hi :: rest).length - 1 := by simp
      have key := ih (pre ++ [lo, hi]) rest ((s + (hi <<< 8 ||| lo)) % 2 ^ 32)
        (by simp at hf; omega) (by simp) (by simp; omega)
      have e : pre ++ [lo, hi] ++ rest = pre ++ lo :: hi :: rest := by simp
      rw [e] at key
      have e2 : (pre ++ [lo, hi]).length = pre.length + 2 := by simp
      rw [e2] at key
      rw [csumLoop, if_pos hl, index_append_succ, index_append]
      simpa [bind, Except.bind, acc32] using key

theorem marshalChecksum_eq (t c : Nat) (rest : Bytes) :
    marshalChecksum (t :: c :: 0 :: 0 :: rest) =
      .ok (t :: c :: csumLo (acc32 (t :: c :: 0 :: 0 :: rest) 0)
        :: csumHi (acc32 (t :: c :: 0 :: 0 :: rest) 0) :: rest) := by
  have key := csumLoop_acc32 (t :: c :: 0 :: 0 :: rest).length [] (t :: c :: 0 :: 0 :: rest) 0
    (le_refl _) (by simp) (by simp)
  simp only [List.nil_append, List.length_nil] at key
  unfold marshalChecksum
  simp only []
  rw [← bind_assoc, key]
  simp only [bind, Except.bind, index, List.get?, List.set, Nat.zero_xor, csumLo, csumHi, fold32]

theorem marshal_bytes (m : icmpMessage) (p : icmpEcho) (hB : m.Body = some p) :
    m.marshal =
      if m.Typ = icmpv6EchoRequest ∨ m.Typ = icmpv6EchoReply then
        .ok ([byte m.Typ, byte m.Code, 0, 0, byte (p.ID >>> (8 : Nat)), byte p.ID,
          byte (p.Seq >>> (8 : Nat)), byte p.Seq] ++ p.Data)
      else
        .ok ([byte m.Typ, byte m.Code,
          csumLo (acc32 ([byte m.Typ, byte m.Code, 0, 0, byte (p.ID >>> (8 : Nat)), byte p.ID,
            byte (p.Seq >>> (8 : Nat)), byte p.Seq] ++ p.Data) 0),
          csumHi (acc32 ([byte m.Typ, byte m.Code, 0, 0, byte (p.ID >>> (8 : Nat)), byte p.ID,
            byte (p.Seq >>> (8 : Nat)), byte p.Seq] ++ p.Data) 0),
          byte (p.ID >>> (8 : Nat)), byte p.ID, byte (p.Seq >>> (8 : Nat)), byte p.Seq]
          ++ p.Data) := by
  unfold icmpMessage.marshal
  have hlen : p.len ≠ 0 := by unfold icmpEcho.len; omega
  simp only [hB, hlen, ne_eq, not_false_eq_true, if_true, icmpEcho.marshal_eq]
  by_cases hT : m.Typ = icmpv6EchoRequest ∨ m.Typ = icmpv6EchoReply
  · simp [hT, bind, Except.bind]
  · simp only [hT, if_false, bind, Except.bind]
    exact marshalChecksum_eq _ _ _

/-! ### Auxiliary lemmas: decoding -/

theorem copy_make (n : Nat) (src : Bytes) (h : n = src.length) : copy (make n) src = src := by
  subst h
  simp [copy, make]

theorem parseICMPEcho_eq (a b c d : Nat) (data : Bytes) :
    parseICMPEcho (a :: b :: c :: d :: data) =
      .ok { ID := ((a <<< 8 ||| b : Nat) : Int), Seq := ((c <<< 8 ||| d : Nat) : Int),
            Data := data } := by
  unfold parseICMPEcho
  simp only [index, List.get?, bind, Except.bind, List.length_cons, List.drop_succ_cons,
    List.drop_zero]
  by_cases h : data.length + 1 + 1 + 1 + 1 > 4
  · rw [if_pos h, copy_make _ _ (by omega)]
  · rw [if_neg h]
    have : data = [] := List.length_eq_zero.mp (by omega)
    rw [this]

/-- The message `parseICMPMessage` returns for an input of at least eight
bytes. -/
theorem parseICMPMessage_eq (t c k2 k3 i1 i2 s1 s2 : Nat) (data : Bytes) :
    parseICMPMessage (t :: c :: k2 :: k3 :: i1 :: i2 :: s1 :: s2 :: data) =
      .ok { Typ := (t : Int), Code := (c : Int), Checksum := ((k2 <<< 8 ||| k3 : Nat) : Int),
            ID := ((i1 <<< 8 ||| i2 : Nat) : Int), Seq := (s2 : Int),
            Body :=
              if (t : Int) = icmpv4EchoRequest ∨ (t : Int) = icmpv4EchoReply ∨
                  (t : Int) = icmpv6EchoRequest ∨ (t : Int) = icmpv6EchoReply then
                some { ID := ((i1 <<< 8 ||| i2 : Nat) : Int),
                       Seq := ((s1 <<< 8 ||| s2 : Nat) : Int), Data := data }
              else none } := by
  unfold parseICMPMessage
  have h1 : ¬ (t :: c :: k2 :: k3 :: i1 :: i2 :: s1 :: s2 :: data).length < 4 := by
    simp only [List.length_cons]; omega
  have h2 : (t :: c :: k2 :: k3 :: i1 :: i2 :: s1 :: s2 :: data).length > 4 := by
    simp only [List.length_cons]; omega
  simp only [h1, h2, if_true, if_false, index, List.get?, bind, Except.bind,
    List.drop_succ_cons, List.drop_zero, parseICMPEcho_eq]
  split <;> rfl

theorem byte_pair (x : Int) (h : 0 ≤ x ∧ x ≤ 65535) :
    ((byte (x >>> (8 : Nat)) <<< 8 ||| byte x : Nat) : Int) = x := by
  rw [shl_or _ _ (byte_lt x), byte_shift]
  unfold byte
  omega

theorem byte_of_lt (x : Int) (h : 0 ≤ x ∧ x ≤ 255) : ((byte x : Nat) : Int) = x := by
  unfold byte
  omega

/-- Decoding what `marshal` produced: the top-level fields and the echo body
of the decoded message, for a message type that fits in a byte. -/
theorem parse_marshal (m : icmpMessage) (p : icmpEcho) (hB : m.Body = some p)
    (hT : 0 ≤ m.Typ ∧ m.Typ ≤ 255) (hid : 0 ≤ p.ID ∧ p.ID ≤ 65535) :
    ∃ wb r, m.marshal = .ok wb ∧ parseICMPMessage wb = .ok r ∧
      r.Typ = m.Typ ∧ r.Code = m.Code % 256 ∧ r.ID = p.ID ∧ r.Seq = p.Seq % 256 ∧
      r.Body =
        if m.Typ = icmpv4EchoRequest ∨ m.Typ = icmpv4EchoReply ∨
            m.Typ = icmpv6EchoRequest ∨ m.Typ = icmpv6EchoReply then
          some { ID := p.ID, Seq := ((byte (p.Seq >>> (8 : Nat)) <<< 8 ||| byte p.Seq : Nat) : Int),
                 Data := p.Data }
        else none := by
  have hc : ((byte m.Code : Nat) : Int) = m.Code % 256 := by unfold byte; omega
  have hs : ((byte p.Seq : Nat) : Int) = p.Seq % 256 := by unfold byte; omega
  rw [marshal_bytes m p hB]
  split
  · refine ⟨_, _, rfl, parseICMPMessage_eq _ _ _ _ _ _ _ _ _, ?_⟩
    simp only [byte_of_lt m.Typ hT, byte_pair p.ID hid, hc, hs, and_self, true_and]
    rfl
  · refine ⟨_, _, rfl, parseICMPMessage_eq _ _ _ _ _ _ _ _ _, ?_⟩
    simp only [byte_of_lt m.Typ hT, byte_pair p.ID hid, hc, hs, and_self, true_and]
    rfl

theorem exists_eight (b : Bytes) (h : 8 ≤ b.length) :
    ∃ t c k2 k3 i1 i2 s1 s2 data, b = t :: c :: k2 :: k3 :: i1 :: i2 :: s1 :: s2 :: data := by
  match b, h with
  | t :: c :: k2 :: k3 :: i1 :: i2 :: s1 :: s2 :: data, _ =>
    exact ⟨t, c, k2, k3, i1, i2, s1, s2, data, rfl⟩
  | [], h | [_], h | [_, _], h | [_, _, _], h | [_, _, _, _], h | [_, _, _, _, _], h
  | [_, _, _, _, _, _], h | [_, _, _, _, _, _, _], h =>
    simp at h

/-- An input shorter than four bytes is rejected with the error of line 170. -/
theorem parseICMPMessage_too_short (b : Bytes) (h : b.length < 4) :
    parseICMPMessage b = .error (.error "Mensagem muito curta") := by
  unfold parseICMPMessage
  simp only [h, if_true]

/-- An input of four to seven bytes aborts on an index expression of line 172. -/
theorem parseICMPMessage_panics (b : Bytes) (h4 : 4 ≤ b.length) (h8 : b.length < 8) :
    parseICMPMessage b = .error .indexOutOfRange := by
  match b, h4, h8 with
  | [_, _, _, _], _, _ => rfl
  | [_, _, _, _, _], _, _ => rfl
  | [_, _, _, _, _, _], _, _ => rfl
  | [_, _, _, _, _, _, _], _, _ => rfl
  | [], h, _ | [_], h, _ | [_, _], h, _ | [_, _, _], h, _ => simp at h
  | _ :: _ :: _ :: _ :: _ :: _ :: _ :: _ :: _, _, h =>
    simp only [List.length_cons] at h
    omega

/-- An input of eight bytes or more always decodes. -/
theorem parseICMPMessage_ok (b : Bytes) (h : 8 ≤ b.length) : ∃ r, parseICMPMessage b = .ok r := by
  obtain ⟨t, c, k2, k3, i1, i2, s1, s2, data, rfl⟩ := exists_eight b h
  exact ⟨_, parseICMPMessage_eq _ _ _ _ _ _ _ _ _⟩

/-- The header length `ipPayload` computes: four times the low nibble of the
first byte. -/
theorem hdrlen_eq (x : Nat) : (x &&& 0x0f) <<< 2 = 4 * (x % 16) := by
  have h : x &&& 0x0f = x % 16 := Nat.and_pow_two_sub_one_eq_mod x 4
  rw [h, Nat.shiftLeft_eq]
  omega

/-- The value of `ipPayload` on an input of twenty bytes or more. -/
theorem ipPayload_eq (x : Nat) (rest : Bytes) (h : 19 ≤ rest.length) :
    ipPayload (x :: rest) =
      if 4 * (x % 16) > (x :: rest).length then .error .sliceOutOfRange
      else .ok ((x :: rest).drop (4 * (x % 16))) := by
  unfold ipPayload
  have h1 : ¬ (x :: rest).length < 20 := by simp only [List.length_cons]; omega
  simp only [h1, if_false, index, List.get?, bind, Except.bind, hdrlen_eq]

/-! ### Auxiliary lemmas: the probe loop -/

theorem replay_append (pre : List SendResult) (o : SendResult) (os : List SendResult) :
    replay (pre ++ o :: os) ((pre.length : Int) + 1) = o := by
  unfold replay
  have h : (((pre.length : Int) + 1) - 1).toNat = pre.length := by omega
  rw [h, List.get?_eq_getElem?, List.getElem?_append_right (le_refl _)]
  simp

/-- With as many iterations allowed as there are attempts left, the loop of
`CheckPing` runs to its end and computes `runAttempts`. -/
theorem checkLoop_replay (os : List SendResult) : ∀ (pre : List SendResult) (st : PingState),
    checkLoop (replay (pre ++ os)) (((pre ++ os).length : Nat) : Int) os.length
      ((pre.length : Int) + 1) st = runAttempts os ((pre.length : Int) + 1) st := by
  induction os with
  | nil =>
    intro pre st
    have h : ¬ ((pre.length : Int) + 1 ≤ (((pre ++ []).length : Nat) : Int)) := by
      simp only [List.append_nil]; omega
    simp only [List.length_nil, checkLoop, if_neg h, runAttempts]
  | cons o os ih =>
    intro pre st
    have h : (pre.length : Int) + 1 ≤ (((pre ++ o :: os).length : Nat) : Int) := by
      simp only [List.length_append, List.length_cons]; omega
    have e : pre ++ o :: os = (pre ++ [o]) ++ os := by simp
    have e2 : (((pre ++ [o]).length : Nat) : Int) + 1 = (pre.length : Int) + 1 + 1 := by
      simp only [List.length_append, List.length_cons, List.length_nil]; omega
    simp only [List.length_cons, checkLoop, if_pos h, replay_append]
    cases o with
    | err text =>
      simp only [runAttempts]
      split
      · rfl
      · rw [e, ← e2]; exact ih (pre ++ [SendResult.err text]) _
    | ok t =>
      simp only [runAttempts]
      rw [e, ← e2]; exact ih (pre ++ [SendResult.ok t]) _

theorem checkLoop_replay_init (os : List SendResult) :
    checkLoop (replay os) (os.length : Int) ((os.length : Int)).toNat 1 PingState.init
      = runAttempts os 1 PingState.init := by
  have h := checkLoop_replay os [] PingState.init
  simpa using h

/-- The counters after a run without permission failure. -/
theorem runAttempts_counts (os : List SendResult) : ∀ (i : Int) (st : PingState),
    (∀ o ∈ os, o.notPermitted = false) →
    ∃ st', runAttempts os i st = .ok st' ∧
      st'.pkgReceived = st.pkgReceived + ((os.filter SendResult.isOk).length : Int) ∧
      st'.pkgLoss + st'.pkgReceived = st.pkgLoss + st.pkgReceived + (os.length : Int) := by
  induction os with
  | nil =>
    intro i st _
    exact ⟨st, rfl, by simp, by simp⟩
  | cons o os ih =>
    intro i st hperm
    have hrest : ∀ o' ∈ os, o'.notPermitted = false :=
      fun o' ho' => hperm o' (List.mem_cons_of_mem _ ho')
    have ho := hperm o (List.mem_cons_self _ _)
    cases o with
    | err text =>
      simp only [SendResult.notPermitted] at ho
      obtain ⟨st', h1, h2, h3⟩ := ih (i + 1) { st with pkgLoss := st.pkgLoss + 1 } hrest
      refine ⟨st', ?_, ?_, ?_⟩
      · simp only [runAttempts, ho, Bool.false_eq_true, if_false]; exact h1
      · simp only [List.filter, SendResult.isOk]; exact h2
      · simp only [List.length_cons] at h3 ⊢; push_cast; omega
    | ok t =>
      obtain ⟨st', h1, h2, h3⟩ := ih (i + 1)
        { pkgLoss := st.pkgLoss
          pkgReceived := st.pkgReceived + 1
          minTts := if t < st.minTts ∨ i = 1 then t else st.minTts
          maxTts := if t > st.maxTts then t else st.maxTts
          mediaTts := st.mediaTts + t
          pauses := st.pauses ++ [1000000000 - truncate t] } hrest
      refine ⟨st', ?_, ?_, ?_⟩
      · simp only [runAttempts]; exact h1
      · simp only [List.filter, SendResult.isOk, List.length_cons] at h2 ⊢; push_cast; omega
      · simp only [List.length_cons] at h3 ⊢; push_cast; omega

/-! ### Auxiliary lemmas: the Internet checksum -/

/-- Induction over a byte sequence two bytes at a time. -/
theorem pairs_induction {motive : Bytes → Prop} (nil : motive [])
    (single : ∀ x, motive [x])
    (pair : ∀ a b rest, motive rest → motive (a :: b :: rest)) : ∀ l, motive l
  | [] => nil
  | [x] => single x
  | a :: b :: rest => pair a b rest (pairs_induction nil single pair rest)

/-- Without reduction modulo `2 ^ 32` the accumulator of `marshal` would hold
the exact little-endian word sum. -/
theorem acc32_eq (b : Bytes) : ∀ s, IsBytes b → s < 2 ^ 32 →
    acc32 b s = (s + wordSumLE b) % 2 ^ 32 := by
  induction b using pairs_induction with
  | nil =>
    intro s _ hs
    simp only [acc32, wordSumLE, Nat.add_zero]
    omega
  | single x =>
    intro s _ _
    simp only [acc32, wordSumLE]
  | pair lo hi rest ih =>
    intro s hb _
    have hlo : lo < 256 := hb lo (by simp)
    have hrest : IsBytes rest := fun x hx => hb x (by simp [hx])
    have hlt : (s + (hi * 256 + lo)) % 2 ^ 32 < 2 ^ 32 := Nat.mod_lt _ (by norm_num)
    simp only [acc32, wordSumLE, shl_or hi lo hlo]
    rw [ih _ hrest hlt]
    omega

theorem wordSumLE_le (b : Bytes) : IsBytes b → wordSumLE b ≤ 65535 * ((b.length + 1) / 2) := by
  induction b using pairs_induction with
  | nil => intro _; simp [wordSumLE]
  | single x =>
    intro hb
    have hx : x < 256 := hb x (by simp)
    simp only [wordSumLE, List.length_cons, List.length_nil]
    omega
  | pair lo hi rest ih =>
    intro hb
    have hlo : lo < 256 := hb lo (by simp)
    have hhi : hi < 256 := hb hi (by simp)
    have hrest : IsBytes rest := fun x hx => hb x (by simp [hx])
    have := ih hrest
    simp only [wordSumLE, List.length_cons]
    omega

/-- Swapping the two bytes of every word multiplies the one's-complement sum
by 256. -/
theorem wordSumBE_mod (b : Bytes) : wordSumBE b % 65535 = (256 * wordSumLE b) % 65535 := by
  induction b using pairs_induction with
  | nil => simp [wordSumBE, wordSumLE]
  | single x => simp only [wordSumBE, wordSumLE]; omega
  | pair a c rest ih => simp only [wordSumBE, wordSumLE]; omega

theorem wordSumBE_pos (b : Bytes) : 0 < wordSumLE b → 0 < wordSumBE b := by
  induction b using pairs_induction with
  | nil => simp [wordSumBE, wordSumLE]
  | single x => simp only [wordSumBE, wordSumLE]; omega
  | pair a c rest ih => simp only [wordSumBE, wordSumLE]; omega

/-- Closed form of the end-around-carry fold. -/
theorem foldCarries_eq (n : Nat) : 0 < n → foldCarries n = (n - 1) % 65535 + 1 := by
  induction n using Nat.strong_induction_on with
  | _ n ih =>
    intro hn
    rw [foldCarries]
    split
    · omega
    · rw [ih (n / 65536 + n % 65536) (by omega) (by omega)]
      omega

theorem foldCarries_of_dvd (n : Nat) (hn : 0 < n) (h : n % 65535 = 0) :
    foldCarries n = 65535 := by
  rw [foldCarries_eq n hn]
  omega

theorem fold32_eq (s : Nat) :
    fold32 s =
      ((s / 65536 + s % 65536) % 2 ^ 32 + (s / 65536 + s % 65536) % 2 ^ 32 / 65536) % 2 ^ 32 := by
  have h1 : ∀ x : Nat, x >>> 16 = x / 65536 := fun x => Nat.shiftRight_eq_div_pow x 16
  have h2 : ∀ x : Nat, x &&& 0xffff = x % 65536 := fun x => Nat.and_pow_two_sub_one_eq_mod x 16
  simp only [fold32, h1, h2]

theorem csumLo_eq (s : Nat) : csumLo s = not32 (fold32 s) % 256 := by
  have h2 : ∀ x : Nat, x &&& 0xff = x % 256 := fun x => Nat.and_pow_two_sub_one_eq_mod x 8
  simp only [csumLo, h2, Nat.mod_mod]

theorem csumHi_eq (s : Nat) : csumHi s = not32 (fold32 s) / 256 % 256 := by
  have h1 : ∀ x : Nat, x >>> 8 = x / 256 := fun x => Nat.shiftRight_eq_div_pow x 8
  simp only [csumHi, h1]

/-- The stored checksum word completes an accumulator that did not overflow
to a positive multiple of `0xFFFF`. -/
theorem csum_complement (s : Nat) (hs : s < 2 ^ 32) :
    (s + (csumHi s * 256 + csumLo s)) % 65535 = 0 ∧ 0 < s + (csumHi s * 256 + csumLo s) := by
  rw [csumLo_eq, csumHi_eq, fold32_eq]
  unfold not32
  norm_num at hs ⊢
  have hq : s / 65536 < 65536 := by omega
  have hr : s % 65536 < 65536 := Nat.mod_lt _ (by norm_num)
  have hs0 : s = 65536 * (s / 65536) + s % 65536 := (Nat.div_add_mod s 65536).symm
  generalize s / 65536 = q at hq hs0 ⊢
  generalize s % 65536 = r at hr hs0 ⊢
  have h1 : (q + r) % 4294967296 = q + r := Nat.mod_eq_of_lt (by omega)
  rw [h1]
  by_cases hg : q + r < 65536
  · have hg0 : (q + r) / 65536 = 0 := Nat.div_eq_of_lt hg
    rw [hg0, Nat.add_zero, h1]
    generalize hn : 4294967295 - (q + r) = n
    have hn' : n = 65536 * 65535 + (65535 - (q + r)) := by omega
    have e : n / 256 % 256 * 256 + n % 256 = 65535 - (q + r) := by omega
    rw [e]
    constructor <;> omega
  · have hg1 : (q + r) / 65536 = 1 := by omega
    have h2 : (q + r + 1) % 4294967296 = q + r + 1 := Nat.mod_eq_of_lt (by omega)
    rw [hg1, h2]
    generalize hn : 4294967295 - (q + r + 1) = n
    have hn' : n = 65536 * 65534 + (131071 - (q + r + 1)) := by omega
    have e : n / 256 % 256 * 256 + n % 256 = 131071 - (q + r + 1) := by omega
    rw [e]
    constructor <;> omega

/-- The word sums of the output of `marshal` in terms of those of the message
with a zero checksum field. -/
theorem wordSumLE_set (t c lo hi : Nat) (rest : Bytes) :
    wordSumLE (t :: c :: lo :: hi :: rest) =
      wordSumLE (t :: c :: 0 :: 0 :: rest) + (hi * 256 + lo) := by
  simp only [wordSumLE]
  omega

/-- The one's-complement sums of the bytes `marshal` returns for an IPv4-family
message, in both byte orders, when the exact word sum of the message with a
zero checksum field fits the 32-bit accumulator. -/
theorem checksum_sums (t c : Nat) (rest : Bytes) (hb : IsBytes (t :: c :: 0 :: 0 :: rest))
    (hsum : wordSumLE (t :: c :: 0 :: 0 :: rest) < 2 ^ 32) :
    foldCarries (wordSumBE (t :: c :: csumLo (acc32 (t :: c :: 0 :: 0 :: rest) 0)
      :: csumHi (acc32 (t :: c :: 0 :: 0 :: rest) 0) :: rest)) = 0xFFFF ∧
    foldCarries (wordSumLE (t :: c :: csumLo (acc32 (t :: c :: 0 :: 0 :: rest) 0)
      :: csumHi (acc32 (t :: c :: 0 :: 0 :: rest) 0) :: rest)) = 0xFFFF := by
  have hacc : acc32 (t :: c :: 0 :: 0 :: rest) 0 = wordSumLE (t :: c :: 0 :: 0 :: rest) := by
    rw [acc32_eq _ 0 hb (by norm_num), Nat.zero_add]
    exact Nat.mod_eq_of_lt hsum
  obtain ⟨hmod, hpos⟩ := csum_complement _ hsum
  rw [hacc]
  have hle := wordSumLE_set t c (csumLo (wordSumLE (t :: c :: 0 :: 0 :: rest)))
    (csumHi (wordSumLE (t :: c :: 0 :: 0 :: rest))) rest
  rw [← hle] at hmod hpos
  refine ⟨foldCarries_of_dvd _ (wordSumBE_pos _ hpos) ?_, foldCarries_of_dvd _ hpos hmod⟩
  rw [wordSumBE_mod]
  omega

theorem isBytes_cons (x : Nat) (b : Bytes) (hx : x < 256) (hb : IsBytes b) : IsBytes (x :: b) := by
  intro y hy
  rcases List.mem_cons.mp hy with h | h
  · rw [h]; exact hx
  · exact hb y h

theorem wordSumLE_replicate (k : Nat) : wordSumLE (List.replicate (2 * k) 255) = 65535 * k := by
  induction k with
  | zero => rfl
  | succ k ih =>
    have e : 2 * (k + 1) = 2 * k + 1 + 1 := by omega
    rw [e, List.replicate_succ, List.replicate_succ, wordSumLE, ih]
    omega

theorem wordSumBE_replicate (k : Nat) : wordSumBE (List.replicate (2 * k) 255) = 65535 * k := by
  induction k with
  | zero => rfl
  | succ k ih =>
    have e : 2 * (k + 1) = 2 * k + 1 + 1 := by omega
    rw [e, List.replicate_succ, List.replicate_succ, wordSumBE, ih]
    omega

theorem wordSumLE_eight (a b c d e f g h : Nat) (rest : Bytes) :
    wordSumLE (a :: b :: c :: d :: e :: f :: g :: h :: rest) =
      (b * 256 + a) + (d * 256 + c) + (f * 256 + e) + (h * 256 + g) + wordSumLE rest := by
  simp only [wordSumLE]
  omega

theorem wordSumBE_eight (a b c d e f g h : Nat) (rest : Bytes) :
    wordSumBE (a :: b :: c :: d :: e :: f :: g :: h :: rest) =
      (a * 256 + b) + (c * 256 + d) + (e * 256 + f) + (g * 256 + h) + wordSumBE rest := by
  simp only [wordSumBE]
  omega

theorem isBytes_replicate (n : Nat) : IsBytes (List.replicate n 255) := by
  intro x hx
  rw [List.eq_of_mem_replicate hx]
  norm_num

/-! ### Auxiliary lemmas: latency statistics and permission failures -/

/-- The statistics after a run without permission failure: the number of
successes, the sum of their times, and the bounds the minimum and the maximum
put on that sum. -/
theorem runAttempts_stats (os : List SendResult) : ∀ (i : Int) (st : PingState),
    (∀ o ∈ os, o.notPermitted = false) →
    1 ≤ i → (i = 1 → st.pkgReceived = 0) → 0 ≤ st.pkgReceived →
    st.minTts * (st.pkgReceived : ℚ) ≤ st.mediaTts →
    st.mediaTts ≤ st.maxTts * (st.pkgReceived : ℚ) →
    ∃ st', runAttempts os i st = .ok st' ∧
      st'.pkgReceived = st.pkgReceived + ((elapsedTimes os).length : Int) ∧
      st'.mediaTts = st.mediaTts + (elapsedTimes os).sum ∧
      st'.minTts * (st'.pkgReceived : ℚ) ≤ st'.mediaTts ∧
      st'.mediaTts ≤ st'.maxTts * (st'.pkgReceived : ℚ) := by
  induction os with
  | nil =>
    intro i st _ _ _ _ hmin hmax
    exact ⟨st, rfl, by simp [elapsedTimes], by simp [elapsedTimes], hmin, hmax⟩
  | cons o os ih =>
    intro i st hperm hi h1 hn hmin hmax
    have hrest : ∀ o' ∈ os, o'.notPermitted = false :=
      fun o' ho' => hperm o' (List.mem_cons_of_mem _ ho')
    have ho := hperm o (List.mem_cons_self _ _)
    cases o with
    | err text =>
      simp only [SendResult.notPermitted] at ho
      obtain ⟨st', e1, e2, e3, e4, e5⟩ := ih (i + 1) { st with pkgLoss := st.pkgLoss + 1 } hrest
        (by omega) (fun h => absurd h (by omega)) hn hmin hmax
      refine ⟨st', ?_, e2, e3, e4, e5⟩
      simp only [runAttempts, ho, Bool.false_eq_true, if_false]
      exact e1
    | ok t =>
      have hnq : (0 : ℚ) ≤ (st.pkgReceived : ℚ) := by exact_mod_cast hn
      obtain ⟨st', e1, e2, e3, e4, e5⟩ := ih (i + 1)
        { pkgLoss := st.pkgLoss
          pkgReceived := st.pkgReceived + 1
          minTts := if t < st.minTts ∨ i = 1 then t else st.minTts
          maxTts := if t > st.maxTts then t else st.maxTts
          mediaTts := st.mediaTts + t
          pauses := st.pauses ++ [1000000000 - truncate t] } hrest
        (by omega) (fun h => absurd h (by omega)) (by show 0 ≤ st.pkgReceived + 1; omega)
        (by
          show (if t < st.minTts ∨ i = 1 then t else st.minTts) *
            ((st.pkgReceived + 1 : Int) : ℚ) ≤ st.mediaTts + t
          push_cast
          split
          · rename_i h
            rcases h with h | h
            · nlinarith [mul_nonneg (sub_nonneg.2 h.le) hnq]
            · have h0 := h1 h
              rw [h0] at hmin ⊢
              simp only [Int.cast_zero, mul_zero, zero_add, mul_one] at hmin ⊢
              linarith
          · rename_i h
            have hle : st.minTts ≤ t := by
              by_contra hc
              exact h (Or.inl (lt_of_not_ge hc))
            linarith)
        (by
          show st.mediaTts + t ≤ (if t > st.maxTts then t else st.maxTts) *
            ((st.pkgReceived + 1 : Int) : ℚ)
          push_cast
          split
          · rename_i h
            nlinarith [mul_nonneg (sub_nonneg.2 (le_of_lt h)) hnq]
          · rename_i h
            have hle : t ≤ st.maxTts := le_of_not_gt h
            linarith)
      refine ⟨st', ?_, ?_, ?_, e4, e5⟩
      · simp only [runAttempts]; exact e1
      · simp only [elapsedTimes, List.length_cons] at e2 ⊢
        rw [e2]; push_cast; ring
      · simp only [elapsedTimes, List.sum_cons] at e3 ⊢
        rw [e3]; ring

/-- A permission failure among the results ends the run with the error of
line 55, whatever follows it. -/
theorem runAttempts_permission (os : List SendResult) : ∀ (i : Int) (st : PingState),
    (∃ o ∈ os, o.notPermitted = true) →
    runAttempts os i st = .error (.error "Operação não permitida!") := by
  induction os with
  | nil =>
    intro i st h
    obtain ⟨o, ho, _⟩ := h
    simp at ho
  | cons o os ih =>
    intro i st h
    cases o with
    | err text =>
      simp only [runAttempts]
      split
      · rfl
      · rename_i hc
        apply ih
        obtain ⟨o', ho', hp⟩ := h
        rcases List.mem_cons.mp ho' with e | e
        · subst e
          simp only [SendResult.notPermitted] at hp
          exact absurd hp hc
        · exact ⟨o', e, hp⟩
    | ok t =>
      simp only [runAttempts]
      apply ih
      obtain ⟨o', ho', hp⟩ := h
      rcases List.mem_cons.mp ho' with e | e
      · subst e
        simp [SendResult.notPermitted] at hp
      · exact ⟨o', e, hp⟩

/-- The number of failures a run without permission failure counts as lost. -/
theorem runAttempts_lost (os : List SendResult) : ∀ (i : Int) (st : PingState),
    (∀ o ∈ os, o.notPermitted = false) →
    ∃ st', runAttempts os i st = .ok st' ∧
      st'.pkgLoss = st.pkgLoss + ((os.filter fun o => !o.isOk).length : Int) := by
  induction os with
  | nil =>
    intro i st _
    exact ⟨st, rfl, by simp⟩
  | cons o os ih =>
    intro i st hperm
    have hrest : ∀ o' ∈ os, o'.notPermitted = false :=
      fun o' ho' => hperm o' (List.mem_cons_of_mem _ ho')
    have ho := hperm o (List.mem_cons_self _ _)
    cases o with
    | err text =>
      simp only [SendResult.notPermitted] at ho
      obtain ⟨st', h1, h2⟩ := ih (i + 1) { st with pkgLoss := st.pkgLoss + 1 } hrest
      refine ⟨st', ?_, ?_⟩
      · simp only [runAttempts, ho, Bool.false_eq_true, if_false]; exact h1
      · simp only [List.filter, SendResult.isOk, Bool.not_false, List.length_cons] at h2 ⊢
        push_cast; omega
    | ok t =>
      obtain ⟨st', h1, h2⟩ := ih (i + 1)
        { pkgLoss := st.pkgLoss
          pkgReceived := st.pkgReceived + 1
          minTts := if t < st.minTts ∨ i = 1 then t else st.minTts
          maxTts := if t > st.maxTts then t else st.maxTts
          mediaTts := st.mediaTts + t
          pauses := st.pauses ++ [1000000000 - truncate t] } hrest
      refine ⟨st', ?_, ?_⟩
      · simp only [runAttempts]; exact h1
      · simp only [List.filter, SendResult.isOk, Bool.not_true] at h2 ⊢
        exact h2

theorem sendCalls_replay (os : List SendResult) : ∀ (pre : List SendResult),
    sendCalls (replay (pre ++ os)) (((pre ++ os).length : Nat) : Int) os.length
      ((pre.length : Int) + 1) = callsOf os := by
  induction os with
  | nil =>
    intro pre
    rfl
  | cons o os ih =>
    intro pre
    have h : (pre.length : Int) + 1 ≤ (((pre ++ o :: os).length : Nat) : Int) := by
      simp only [List.length_append, List.length_cons]; omega
    have e : pre ++ o :: os = (pre ++ [o]) ++ os := by simp
    have e2 : (((pre ++ [o]).length : Nat) : Int) + 1 = (pre.length : Int) + 1 + 1 := by
      simp only [List.length_append, List.length_cons, List.length_nil]; omega
    simp only [List.length_cons, sendCalls, if_pos h, replay_append]
    cases o with
    | err text =>
      simp only [callsOf, SendResult.notPermitted]
      split
      · rfl
      · rw [e, ← e2, ih (pre ++ [SendResult.err text])]
    | ok t =>
      simp only [callsOf, SendResult.notPermitted, Bool.false_eq_true, if_false]
      rw [e, ← e2, ih (pre ++ [SendResult.ok t])]

theorem attemptsMade_replay (os : List SendResult) :
    attemptsMade (replay os) (os.length : Int) = callsOf os := by
  have h := sendCalls_replay os []
  unfold attemptsMade
  simpa using h

theorem callsOf_clean (os : List SendResult) (h : ∀ o ∈ os, o.notPermitted = false) :
    callsOf os = os.length := by
  induction os with
  | nil => rfl
  | cons o os ih =>
    have ho := h o (List.mem_cons_self _ _)
    simp only [callsOf, ho, Bool.false_eq_true, if_false, List.length_cons,
      ih (fun o' ho' => h o' (List.mem_cons_of_mem _ ho'))]
    omega

theorem callsOf_first_permission (pre : List SendResult) (o : SendResult)
    (post : List SendResult) (h : ∀ o' ∈ pre, o'.notPermitted = false)
    (ho : o.notPermitted = true) : callsOf (pre ++ o :: post) = pre.length + 1 := by
  induction pre with
  | nil => simp [callsOf, ho]
  | cons a pre ih =>
    have ha := h a (List.mem_cons_self _ _)
    have ih' := ih (fun o' ho' => h o' (List.mem_cons_of_mem _ ho'))
    show callsOf (a :: (pre ++ o :: post)) = (a :: pre).length + 1
    rw [callsOf, ha, ih']
    simp only [Bool.false_eq_true, if_false, List.length_cons]
    omega

/-! ### Auxiliary lemmas: the read loop of `sendPackage` -/

theorem readLoop_unmatched (xid xseq : Int) (beginTime : ℚ) (readError : String)
    (d : Datagram) (rest : List Datagram) (m : icmpMessage)
    (hdec : (ipPayload d.rb >>= parseICMPMessage) = .ok m)
    (hne : ¬ (m.ID = xid ∧ m.Seq = xseq)) :
    readLoop xid xseq beginTime readError (d :: rest) =
      readLoop xid xseq beginTime readError rest := by
  rw [readLoop, hdec]
  simp only [if_neg hne]

theorem readLoop_fault (xid xseq : Int) (beginTime : ℚ) (readError : String)
    (d : Datagram) (rest : List Datagram) (f : Fault)
    (hdec : (ipPayload d.rb >>= parseICMPMessage) = .error f) :
    readLoop xid xseq beginTime readError (d :: rest) = .error f := by
  rw [readLoop, hdec]

theorem readLoop_matched (xid xseq : Int) (beginTime : ℚ) (readError : String)
    (d : Datagram) (rest : List Datagram) (m : icmpMessage)
    (hdec : (ipPayload d.rb >>= parseICMPMessage) = .ok m)
    (hm : m.ID = xid ∧ m.Seq = xseq) :
    readLoop xid xseq beginTime readError (d :: rest) =
      if m.Typ = 0 ∧ m.Code = 0 then .ok ((d.now - beginTime) / 1000000) else .ok 0 := by
  rw [readLoop, hdec]
  simp only [if_pos hm]

/-- When every datagram decodes to a message that does not match, the loop
ends with the error of the read that follows the last of them. -/
theorem readLoop_all_unmatched (xid xseq : Int) (beginTime : ℚ) (readError : String)
    (ds : List Datagram)
    (h : ∀ d ∈ ds, ∃ m, (ipPayload d.rb >>= parseICMPMessage) = .ok m ∧
      ¬ (m.ID = xid ∧ m.Seq = xseq)) :
    readLoop xid xseq beginTime readError ds = .error (.error readError) := by
  induction ds with
  | nil => rfl
  | cons d rest ih =>
    obtain ⟨m, hdec, hne⟩ := h d (List.mem_cons_self _ _)
    rw [readLoop_unmatched xid xseq beginTime readError d rest m hdec hne]
    exact ih (fun d' hd' => h d' (List.mem_cons_of_mem _ hd'))

/-- The loop returns without error only on a datagram that passes the test of
line 128. -/
theorem readLoop_ok (xid xseq : Int) (beginTime : ℚ) (readError : String)
    (ds : List Datagram) (t : ℚ) (h : readLoop xid xseq beginTime readError ds = .ok t) :
    ∃ d ∈ ds, ∃ m, (ipPayload d.rb >>= parseICMPMessage) = .ok m ∧
      m.ID = xid ∧ m.Seq = xseq := by
  induction ds with
  | nil => simp [readLoop] at h
  | cons d rest ih =>
    cases hdec : (ipPayload d.rb >>= parseICMPMessage) with
    | error f =>
      rw [readLoop_fault xid xseq beginTime readError d rest f hdec] at h
      cases h
    | ok m =>
      by_cases hm : m.ID = xid ∧ m.Seq = xseq
      · exact ⟨d, List.mem_cons_self _ _, m, hdec, hm.1, hm.2⟩
      · rw [readLoop_unmatched xid xseq beginTime readError d rest m hdec hm] at h
        obtain ⟨d', hd', hrest⟩ := ih h
        exact ⟨d', List.mem_cons_of_mem _ hd', hrest⟩

theorem sendPackage_ok (net : Transport) (code n : Int) (t : ℚ)
    (h : sendPackage net code n = .ok t) :
    ∃ d ∈ net.incoming, ∃ m, (ipPayload d.rb >>= parseICMPMessage) = .ok m ∧
      m.ID = code ∧ m.Seq = n + 1 := by
  unfold sendPackage at h
  split at h
  · cases h
  · split at h
    · cases h
    · simp only [] at h
      split at h
      · cases h
      · split at h
        · cases h
        · exact readLoop_ok _ _ _ _ _ _ h

/-- The request of `sendPackage` always encodes. -/
theorem echoRequest_marshal (typ code n : Int) :
    ∃ wb, (echoRequest typ code n).marshal = .ok wb := by
  rw [marshal_bytes (echoRequest typ code n) { ID := code, Seq := n + 1, Data := [] } rfl]
  split
  · exact ⟨_, rfl⟩
  · exact ⟨_, rfl⟩

/-- Once the address is resolved, the connection open and the request written,
the result of `sendPackage` is that of its read loop. -/
theorem sendPackage_connected (net : Transport) (code n : Int) (isIPv4 : Bool)
    (hr : net.resolve = .ok isIPv4) (hd : net.dial = none) (hw : net.write = none) :
    sendPackage net code n =
      readLoop code (n + 1) net.beginTime net.readError net.incoming := by
  obtain ⟨wb, hwb⟩ :=
    echoRequest_marshal (if isIPv4 then icmpv4EchoRequest else icmpv6EchoRequest) code n
  unfold sendPackage
  simp only [hr, hd, hw, hwb]

/-- The stream of datagrams enters `sendPackage` through the read loop only. -/
theorem sendPackage_incoming (net : Transport) (code n : Int) (ds ds' : List Datagram)
    (h : readLoop code (n + 1) net.beginTime net.readError ds =
      readLoop code (n + 1) net.beginTime net.readError ds') :
    sendPackage { net with incoming := ds } code n =
      sendPackage { net with incoming := ds' } code n := by
  unfold sendPackage
  simp only [h]

/-- The only error `parseICMPMessage` returns is that of line 170. -/
theorem parseICMPMessage_error_text (b : Bytes) (text : String)
    (h : parseICMPMessage b = .error (.error text)) : text = "Mensagem muito curta" := by
  by_cases h4 : b.length < 4
  · rw [parseICMPMessage_too_short b h4] at h
    injection h with h
    injection h with h
    exact h.symm
  · by_cases h8 : b.length < 8
    · rw [parseICMPMessage_panics b (by omega) h8] at h
      injection h with h
      cases h
    · obtain ⟨r, hr⟩ := parseICMPMessage_ok b (by omega)
      rw [hr] at h
      cases h

/-- The function `ipPayload` returns no error; it succeeds or aborts. -/
theorem ipPayload_cases (b : Bytes) :
    ipPayload b = .error .sliceOutOfRange ∨ ∃ p, ipPayload b = .ok p ∧ ∃ k, p = b.drop k := by
  by_cases h : b.length < 20
  · right
    refine ⟨b, ?_, 0, rfl⟩
    unfold ipPayload
    simp only [h, if_true]
  · match b, h with
    | [], h => simp at h
    | x :: rest, h =>
      have h19 : 19 ≤ rest.length := by simp only [List.length_cons] at h; omega
      rw [ipPayload_eq x rest h19]
      split
      · exact Or.inl rfl
      · exact Or.inr ⟨_, rfl, _, rfl⟩

theorem decode_error_text (rb : Bytes) (text : String)
    (h : (ipPayload rb >>= parseICMPMessage) = .error (.error text)) :
    text = "Mensagem muito curta" := by
  rcases ipPayload_cases rb with hp | ⟨p, hp, _⟩
  · rw [hp] at h
    cases h
  · rw [hp] at h
    exact parseICMPMessage_error_text p text h

/-- A single attempt that fails without permission failure: one packet sent,
none received, one lost. -/
theorem checkPing_single_failure (text : String)
    (h : stringsContains text "operation not permitted" = false) :
    CheckPing (replay [SendResult.err text]) 1 =
      .ok { msg := { enviado := 1, recebido := 0, perdido := 1, media := none },
            pkgLoss := 1, minTts := 0, mediaTts := 0, maxTts := 0 } := by
  have hl := checkLoop_replay_init [SendResult.err text]
  simp only [List.length_cons, List.length_nil] at hl
  unfold CheckPing
  norm_num at hl ⊢
  rw [hl]
  norm_num [runAttempts, h, PingState.init, bind, Except.bind]

/-! ### Auxiliary lemmas: the dispatcher -/

/-- The invariant of the dispatcher for a limit that is not negative: the
counter is the number of running sequences, it does not exceed the limit, and
it is below the limit while `main` is between its wait loop and `Add`. -/
theorem dispatch_invariant (L : Int) (n : Nat) (hL : 0 ≤ L) (s : Dispatch)
    (h : Reachable L n s) :
    s.group.count = (s.running : Int) ∧ s.group.count ≤ L ∧
      (s.passed = true → s.group.count < L) := by
  induction h with
  | init =>
    refine ⟨rfl, hL, ?_⟩
    intro hp
    simp [Dispatch.init] at hp
  | step s t _ ht ih =>
    obtain ⟨h1, h2, h3⟩ := ih
    cases ht with
    | leaveWait hp hh hs =>
      refine ⟨h1, h2, fun _ => ?_⟩
      have hne : s.group.count ≠ L := hs
      show s.group.count < L
      omega
    | launch hp =>
      have hlt := h3 hp
      refine ⟨?_, ?_, ?_⟩
      · show s.group.count + 1 = ((s.running + 1 : Nat) : Int)
        push_cast; omega
      · show s.group.count + 1 ≤ L
        omega
      · intro hc
        cases hc
    | finish hr =>
      refine ⟨?_, ?_, ?_⟩
      · show s.group.count - 1 = ((s.running - 1 : Nat) : Int)
        omega
      · show s.group.count - 1 ≤ L
        omega
      · intro hp
        show s.group.count - 1 < L
        have := h3 hp
        omega

/-! ### Auxiliary lemmas: the checksum against its reference definition -/

theorem foldCarries_zero : foldCarries 0 = 0 := by
  rw [foldCarries]
  simp

theorem foldCarries_le (n : Nat) : foldCarries n ≤ 65535 := by
  rcases Nat.eq_zero_or_pos n with h | h
  · rw [h, foldCarries_zero]; omega
  · rw [foldCarries_eq n h]; omega

/-- The two bytes `marshal` stores are the complement of the folded accumulator,
low byte first, as long as the accumulator did not overflow. -/
theorem csum_word (s : Nat) (hs : s < 2 ^ 32) :
    csumHi s * 256 + csumLo s = 65535 - foldCarries s := by
  rcases Nat.eq_zero_or_pos s with h0 | hpos
  · subst h0
    rw [foldCarries_zero]
    decide
  rw [foldCarries_eq s hpos, csumLo_eq, csumHi_eq, fold32_eq]
  unfold not32
  norm_num at hs ⊢
  have hq : s / 65536 < 65536 := by omega
  have hr : s % 65536 < 65536 := Nat.mod_lt _ (by norm_num)
  have hs0 : s = 65536 * (s / 65536) + s % 65536 := (Nat.div_add_mod s 65536).symm
  generalize s / 65536 = q at hq hs0 ⊢
  generalize s % 65536 = r at hr hs0 ⊢
  have h1 : (q + r) % 4294967296 = q + r := Nat.mod_eq_of_lt (by omega)
  rw [h1]
  by_cases hg : q + r < 65536
  · have hg0 : (q + r) / 65536 = 0 := Nat.div_eq_of_lt hg
    rw [hg0, Nat.add_zero, h1]
    generalize hn : 4294967295 - (q + r) = n
    have hn' : n = 65536 * 65535 + (65535 - (q + r)) := by omega
    have e : n / 256 % 256 * 256 + n % 256 = 65535 - (q + r) := by omega
    rw [e]
    omega
  · have hg1 : (q + r) / 65536 = 1 := by omega
    have h2 : (q + r + 1) % 4294967296 = q + r + 1 := Nat.mod_eq_of_lt (by omega)
    rw [hg1, h2]
    generalize hn : 4294967295 - (q + r + 1) = n
    have hn' : n = 65536 * 65534 + (131071 - (q + r + 1)) := by omega
    have e : n / 256 % 256 * 256 + n % 256 = 131071 - (q + r + 1) := by omega
    rw [e]
    omega

theorem wordSumBE_zero (b : Bytes) : wordSumLE b = 0 → wordSumBE b = 0 := by
  induction b using pairs_induction with
  | nil => simp [wordSumBE, wordSumLE]
  | single x => simp only [wordSumBE, wordSumLE]; omega
  | pair a c rest ih => simp only [wordSumBE, wordSumLE]; omega

/-- The folded sum of the words in network byte order is the folded sum of the
words read low byte first with its two bytes swapped. -/
theorem foldCarries_swap (b : Bytes) :
    foldCarries (wordSumBE b) =
      foldCarries (wordSumLE b) % 256 * 256 + foldCarries (wordSumLE b) / 256 := by
  rcases Nat.eq_zero_or_pos (wordSumLE b) with h0 | hpos
  · rw [wordSumBE_zero b h0, h0, foldCarries_zero]
  · have hB := wordSumBE_pos b hpos
    have hmod := wordSumBE_mod b
    rw [foldCarries_eq _ hB, foldCarries_eq _ hpos]
    generalize wordSumBE b = B at hB hmod ⊢
    generalize wordSumLE b = L at hpos hmod ⊢
    omega

/-- The checksum bytes of `marshal` against the reference definition, for a
message with a zero checksum field whose exact word sum fits 32 bits. -/
theorem checksum_reference (b : Bytes) (hb : IsBytes b) (hsum : wordSumLE b < 2 ^ 32) :
    acc32 b 0 = wordSumLE b ∧
    csumLo (acc32 b 0) = internetChecksum b / 256 ∧
    csumHi (acc32 b 0) = internetChecksum b % 256 := by
  have hacc : acc32 b 0 = wordSumLE b := by
    rw [acc32_eq _ 0 hb (by norm_num), Nat.zero_add]
    exact Nat.mod_eq_of_lt hsum
  have hw := csum_word (wordSumLE b) hsum
  have hlo : csumLo (wordSumLE b) < 256 := by unfold csumLo; exact Nat.mod_lt _ (by norm_num)
  have hhi : csumHi (wordSumLE b) < 256 := by unfold csumHi; exact Nat.mod_lt _ (by norm_num)
  have hle := foldCarries_le (wordSumLE b)
  rw [hacc]
  unfold internetChecksum
  rw [foldCarries_swap]
  generalize foldCarries (wordSumLE b) = c at hw hle ⊢
  generalize csumLo (wordSumLE b) = lo at hw hlo ⊢
  generalize csumHi (wordSumLE b) = hi at hw hhi ⊢
  have hc : c = 256 * (c / 256) + c % 256 := (Nat.div_add_mod c 256).symm
  have hc1 : c % 256 < 256 := Nat.mod_lt _ (by norm_num)
  have hc2 : c / 256 < 256 := by omega
  generalize c / 256 = c2 at hc hc2 ⊢
  generalize c % 256 = c1 at hc hc1 ⊢
  have elo : lo = 255 - c1 := by omega
  have ehi : hi = 255 - c2 := by omega
  have e : 65535 - (c1 * 256 + c2) = (255 - c1) * 256 + (255 - c2) := by omega
  rw [e, elo, ehi]
  refine ⟨rfl, ?_, ?_⟩ <;> omega

/-! ### Auxiliary lemmas: requests that no reply can match -/

theorem isBytes_drop (b : Bytes) (k : Nat) (hb : IsBytes b) : IsBytes (b.drop k) :=
  fun x hx => hb x (List.mem_of_mem_drop hx)

/-- The ranges of the top-level fields `parseICMPMessage` reads from bytes. -/
theorem parse_fields_range (b : Bytes) (m : icmpMessage) (hb : IsBytes b)
    (h : parseICMPMessage b = .ok m) :
    0 ≤ m.Seq ∧ m.Seq ≤ 255 ∧ 0 ≤ m.ID ∧ m.ID ≤ 65535 := by
  by_cases h4 : b.length < 4
  · rw [parseICMPMessage_too_short b h4] at h
    cases h
  · by_cases h8 : b.length < 8
    · rw [parseICMPMessage_panics b (by omega) h8] at h
      cases h
    · obtain ⟨t, c, k2, k3, i1, i2, s1, s2, data, rfl⟩ := exists_eight b (by omega)
      rw [parseICMPMessage_eq] at h
      injection h with h
      subst h
      have hi1 : i1 < 256 := hb i1 (by simp)
      have hi2 : i2 < 256 := hb i2 (by simp)
      have hs2 : s2 < 256 := hb s2 (by simp)
      simp only [shl_or i1 i2 hi2]
      refine ⟨?_, ?_, ?_, ?_⟩ <;> push_cast <;> omega

theorem decode_fields_range (rb : Bytes) (m : icmpMessage) (hb : IsBytes rb)
    (h : (ipPayload rb >>= parseICMPMessage) = .ok m) :
    0 ≤ m.Seq ∧ m.Seq ≤ 255 ∧ 0 ≤ m.ID ∧ m.ID ≤ 65535 := by
  rcases ipPayload_cases rb with hp | ⟨p, hp, k, hk⟩
  · rw [hp] at h
    cases h
  · rw [hp] at h
    exact parse_fields_range p m (by rw [hk]; exact isBytes_drop rb k hb) h

/-- A request whose sequence number is 256 or more, or whose identifier is
65536 or more, is matched by no datagram, and `sendPackage` does not return
without error for it. -/
theorem sendPackage_unmatchable (net : Transport) (code n : Int)
    (hb : ∀ d ∈ net.incoming, IsBytes d.rb) (hbig : 256 ≤ n + 1 ∨ 65536 ≤ code) :
    (∀ d ∈ net.incoming, ∀ m, (ipPayload d.rb >>= parseICMPMessage) = .ok m →
      ¬ (m.ID = code ∧ m.Seq = n + 1)) ∧
    ∀ t, sendPackage net code n ≠ .ok t := by
  have hno : ∀ d ∈ net.incoming, ∀ m, (ipPayload d.rb >>= parseICMPMessage) = .ok m →
      ¬ (m.ID = code ∧ m.Seq = n + 1) := by
    intro d hd m hm hmatch
    have hr := decode_fields_range d.rb m (hb d hd) hm
    omega
  refine ⟨hno, ?_⟩
  intro t ht
  obtain ⟨d, hd, m, hm, h1, h2⟩ := sendPackage_ok net code n t ht
  exact hno d hd m hm ⟨h1, h2⟩

theorem outcome_ok (x : Except Fault ℚ) (t : ℚ) (h : outcome x = some (SendResult.ok t)) :
    x = .ok t := by
  cases x with
  | ok a =>
    simp only [outcome, Option.some.injEq, SendResult.ok.injEq] at h
    rw [h]
  | error f =>
    cases f <;> simp [outcome] at h

theorem filter_length_le {α : Type} (p : α → Bool) (os : List α) : ∀ (N : Nat),
    (∀ k (hk : k < os.length), N ≤ k → p (os.get ⟨k, hk⟩) = false) →
    (os.filter p).length ≤ N := by
  induction os with
  | nil => intro N _; simp
  | cons a as ih =>
    intro N h
    cases N with
    | zero =>
      have ha : p a = false := h 0 (by simp) (le_refl _)
      have hrest := ih 0 (fun k hk _ => h (k + 1) (by simp only [List.length_cons]; omega)
        (Nat.zero_le _))
      simp only [List.filter, ha]
      exact hrest
    | succ N =>
      have hrest := ih N (fun k hk hN => h (k + 1) (by simp only [List.length_cons]; omega)
        (by omega))
      have hle := List.length_filter_le p as
      cases hpa : p a
      · simp only [List.filter, hpa]
        omega
      · simp only [List.filter, hpa, List.length_cons]
        omega

/-! ### The properties -/

/-- C1. Echo body round trip: for every Echo type `t` in {8, 0, 128, 129},
every `identifier` and `sequenceNumber` in 0..65535 and every payload, the
empty one included, `parseICMPMessage` succeeds on the bytes that `marshal`
produces for `{Type t, Code 0, Body icmpEcho{identifier, sequenceNumber,
payload}}`, and the echo body of the decoded message carries that identifier,
that sequence number and that payload, byte for byte. -/
theorem echo_body_round_trip (t identifier sequenceNumber : Int) (payload : Bytes)
    (ht : t = icmpv4EchoRequest ∨ t = icmpv4EchoReply ∨
      t = icmpv6EchoRequest ∨ t = icmpv6EchoReply)
    (hid : 0 ≤ identifier ∧ identifier ≤ 65535)
    (hseq : 0 ≤ sequenceNumber ∧ sequenceNumber ≤ 65535) :
    ∃ wb r,
      icmpMessage.marshal
        { Typ := t, Code := 0, ID := 0, Seq := 0, Checksum := 0,
          Body := some { ID := identifier, Seq := sequenceNumber, Data := payload } } = .ok wb ∧
      parseICMPMessage wb = .ok r ∧
      r.Body = some { ID := identifier, Seq := sequenceNumber, Data := payload } := by
  have hT : 0 ≤ t ∧ t ≤ 255 := by
    simp only [icmpv4EchoRequest, icmpv4EchoReply, icmpv6EchoRequest, icmpv6EchoReply] at ht
    omega
  obtain ⟨wb, r, h1, h2, -, -, -, -, h3⟩ :=
    parse_marshal
      { Typ := t, Code := 0, ID := 0, Seq := 0, Checksum := 0,
        Body := some { ID := identifier, Seq := sequenceNumber, Data := payload } }
      { ID := identifier, Seq := sequenceNumber, Data := payload } rfl hT hid
  refine ⟨wb, r, h1, h2, ?_⟩
  rw [h3, if_pos ht, byte_pair sequenceNumber hseq]

theorem echo_body_round_trip_witness :
    (((8 : Int) = icmpv4EchoRequest ∨ (8 : Int) = icmpv4EchoReply ∨
        (8 : Int) = icmpv6EchoRequest ∨ (8 : Int) = icmpv6EchoReply) ∧
      ((0 : Int) ≤ 4660 ∧ (4660 : Int) ≤ 65535) ∧ ((0 : Int) ≤ 513 ∧ (513 : Int) ≤ 65535)) ∧
    ∃ wb r,
      icmpMessage.marshal
        { Typ := 8, Code := 0, ID := 0, Seq := 0, Checksum := 0,
          Body := some { ID := 4660, Seq := 513, Data := [1, 2, 3] } } = .ok wb ∧
      parseICMPMessage wb = .ok r ∧
      r.Body = some { ID := 4660, Seq := 513, Data := [1, 2, 3] } :=
  ⟨by decide, echo_body_round_trip 8 4660 513 [1, 2, 3] (by decide) (by decide) (by decide)⟩

/-- C2 (evaluation at the failing input). For the Echo request with identifier
1, sequence number 256 and an empty payload, the message decoded from the bytes
of `marshal` has the top-level field `Seq = 0`, not 256, although its echo body
carries 256; the test `m.ID == xid && m.Seq == xseq` of `sendPackage` reads
the top-level field. -/
theorem top_level_seq_drops_high_byte :
    (icmpMessage.marshal
        { Typ := 8, Code := 0, ID := 0, Seq := 0, Checksum := 0,
          Body := some { ID := 1, Seq := 256, Data := [] } } >>= parseICMPMessage) =
      .ok { Typ := 8, Code := 0, ID := 1, Seq := 0, Checksum := 63230,
            Body := some { ID := 1, Seq := 256, Data := [] } } := by
  decide

/-- C3 (counterexample). For the Echo request with identifier and sequence
number 65535 and a payload of 131070 bytes `0xff`, the exact word sum of the
message is `2 ^ 32 + 7`, the 32-bit accumulator of `marshal` wraps around to 7,
and the bytes returned do not satisfy the one's-complement invariant: their
words sum and fold to `0x0100` in network byte order (to `0x0001` when read low
byte first), not to `0xFFFF`. -/
theorem checksum_wrong_after_overflow :
    icmpMessage.marshal
        { Typ := 8, Code := 0, ID := 0, Seq := 0, Checksum := 0,
          Body := some { ID := 65535, Seq := 65535, Data := List.replicate (2 * 65535) 255 } } =
      .ok (8 :: 0 :: 248 :: 255 :: 255 :: 255 :: 255 :: 255 :: List.replicate (2 * 65535) 255) ∧
    foldCarries (wordSumBE
      (8 :: 0 :: 248 :: 255 :: 255 :: 255 :: 255 :: 255 :: List.replicate (2 * 65535) 255)) = 256 ∧
    foldCarries (wordSumLE
      (8 :: 0 :: 248 :: 255 :: 255 :: 255 :: 255 :: 255 :: List.replicate (2 * 65535) 255)) = 1 := by
  have hb : IsBytes (8 :: 0 :: 0 :: 0 :: 255 :: 255 :: 255 :: 255 ::
      List.replicate (2 * 65535) 255) := by
    repeat first
      | exact isBytes_replicate _
      | refine isBytes_cons _ _ (by norm_num) ?_
  have hacc : acc32 (8 :: 0 :: 0 :: 0 :: 255 :: 255 :: 255 :: 255 ::
      List.replicate (2 * 65535) 255) 0 = 7 := by
    rw [acc32_eq _ 0 hb (by norm_num), wordSumLE_eight, wordSumLE_replicate]
    norm_num
  have h1 : byte ((65535 : Int) >>> (8 : Nat)) = 255 := by rw [byte_shift]; rfl
  have h2 : byte (65535 : Int) = 255 := rfl
  have h3 : byte (8 : Int) = 8 := rfl
  have h4 : byte (0 : Int) = 0 := rfl
  have hT : ¬ ((8 : Int) = icmpv6EchoRequest ∨ (8 : Int) = icmpv6EchoReply) := by decide
  have hlo : csumLo 7 = 248 := by decide
  have hhi : csumHi 7 = 255 := by decide
  refine ⟨?_, ?_, ?_⟩
  · rw [marshal_bytes _ _ rfl]
    simp only [if_neg hT, h1, h2, h3, h4, List.cons_append, List.nil_append, hacc, hlo, hhi]
  · rw [wordSumBE_eight, wordSumBE_replicate, foldCarries_eq _ (by norm_num)]
  · rw [wordSumLE_eight, wordSumLE_replicate, foldCarries_eq _ (by norm_num)]

/-- C3 (amended). Checksum validity: for every IPv4-family message (type 8 or
0) with any code, identifier and sequence number and a payload of at most
131068 bytes, so that the encoded message has at most 131076 bytes, the bytes
returned by `marshal` satisfy the one's-complement invariant: the sum of their
16-bit words, checksum field included and an odd final byte padded with a zero
byte, folds to `0xFFFF`, whether the words are read in network byte order or
low byte first. -/
theorem checksum_valid (m : icmpMessage) (p : icmpEcho) (hB : m.Body = some p)
    (hT : m.Typ = icmpv4EchoRequest ∨ m.Typ = icmpv4EchoReply) (hdata : IsBytes p.Data)
    (hlen : p.Data.length ≤ 131068) :
    ∃ out, m.marshal = .ok out ∧
      foldCarries (wordSumBE out) = 0xFFFF ∧ foldCarries (wordSumLE out) = 0xFFFF := by
  have hT6 : ¬ (m.Typ = icmpv6EchoRequest ∨ m.Typ = icmpv6EchoReply) := by
    simp only [icmpv4EchoRequest, icmpv4EchoReply, icmpv6EchoRequest, icmpv6EchoReply] at hT ⊢
    omega
  have ht : byte m.Typ ≤ 8 := by
    simp only [icmpv4EchoRequest, icmpv4EchoReply] at hT
    unfold byte
    omega
  rw [marshal_bytes m p hB, if_neg hT6]
  refine ⟨_, rfl, ?_⟩
  simp only [List.cons_append, List.nil_append]
  have hc := byte_lt m.Code
  have h1 := byte_lt (p.ID >>> (8 : Nat))
  have h2 := byte_lt p.ID
  have h3 := byte_lt (p.Seq >>> (8 : Nat))
  have h4 := byte_lt p.Seq
  apply checksum_sums
  · exact isBytes_cons _ _ (by omega) (isBytes_cons _ _ hc (isBytes_cons _ _ (by norm_num)
      (isBytes_cons _ _ (by norm_num) (isBytes_cons _ _ h1 (isBytes_cons _ _ h2
      (isBytes_cons _ _ h3 (isBytes_cons _ _ h4 hdata)))))))
  · have hd := wordSumLE_le p.Data hdata
    have hk : (p.Data.length + 1) / 2 ≤ 65534 := by omega
    have hd' : wordSumLE p.Data ≤ 65535 * 65534 :=
      le_trans hd (Nat.mul_le_mul_left _ hk)
    simp only [wordSumLE]
    norm_num
    omega

theorem checksum_valid_witness :
    (((8 : Int) = icmpv4EchoRequest ∨ (8 : Int) = icmpv4EchoReply) ∧ IsBytes [1, 2, 3] ∧
      ([1, 2, 3] : Bytes).length ≤ 131068) ∧
    ∃ out,
      icmpMessage.marshal
        { Typ := 8, Code := 0, ID := 0, Seq := 0, Checksum := 0,
          Body := some { ID := 4660, Seq := 2, Data := [1, 2, 3] } } = .ok out ∧
      foldCarries (wordSumBE out) = 0xFFFF ∧ foldCarries (wordSumLE out) = 0xFFFF :=
  ⟨⟨by decide, by unfold IsBytes; decide, by decide⟩,
    checksum_valid
      { Typ := 8, Code := 0, ID := 0, Seq := 0, Checksum := 0,
        Body := some { ID := 4660, Seq := 2, Data := [1, 2, 3] } }
      { ID := 4660, Seq := 2, Data := [1, 2, 3] } rfl (by decide) (by unfold IsBytes; decide)
      (by decide)⟩

/-- C4. Wire layout: for a message carrying an echo body with identifier and
sequence number in 0..65535, `marshal` returns exactly `8 + len(payload)`
bytes: the type byte, the code byte, the two bytes of the checksum field, the
identifier high byte first, the sequence number high byte first, then the
payload unchanged; the type and code bytes are the type and code themselves
when these fit in a byte, and for the types 128 and 129 the two checksum bytes
are zero. -/
theorem marshal_wire_layout (m : icmpMessage) (p : icmpEcho) (hB : m.Body = some p)
    (hid : 0 ≤ p.ID ∧ p.ID ≤ 65535) (hseq : 0 ≤ p.Seq ∧ p.Seq ≤ 65535) :
    ∃ out c2 c3,
      m.marshal = .ok out ∧
      out.length = 8 + p.Data.length ∧
      out = [byte m.Typ, byte m.Code, c2, c3, (p.ID / 256).toNat, (p.ID % 256).toNat,
        (p.Seq / 256).toNat, (p.Seq % 256).toNat] ++ p.Data ∧
      c2 < 256 ∧ c3 < 256 ∧
      (0 ≤ m.Typ ∧ m.Typ ≤ 255 → ((byte m.Typ : Nat) : Int) = m.Typ) ∧
      (0 ≤ m.Code ∧ m.Code ≤ 255 → ((byte m.Code : Nat) : Int) = m.Code) ∧
      (m.Typ = icmpv6EchoRequest ∨ m.Typ = icmpv6EchoReply → c2 = 0 ∧ c3 = 0) := by
  have e1 : byte (p.ID >>> (8 : Nat)) = (p.ID / 256).toNat := by rw [byte_shift]; congr 1; omega
  have e2 : byte p.ID = (p.ID % 256).toNat := rfl
  have e3 : byte (p.Seq >>> (8 : Nat)) = (p.Seq / 256).toNat := by
    rw [byte_shift]; congr 1; omega
  have e4 : byte p.Seq = (p.Seq % 256).toNat := rfl
  rw [marshal_bytes m p hB, e1, e2, e3, e4]
  by_cases hT : m.Typ = icmpv6EchoRequest ∨ m.Typ = icmpv6EchoReply
  · rw [if_pos hT]
    refine ⟨_, 0, 0, rfl, ?_, rfl, by norm_num, by norm_num, byte_of_lt _, byte_of_lt _,
      fun _ => ⟨rfl, rfl⟩⟩
    simp only [List.length_append, List.length_cons, List.length_nil]
  · rw [if_neg hT]
    refine ⟨_, _, _, rfl, ?_, rfl, Nat.mod_lt _ (by norm_num), Nat.mod_lt _ (by norm_num),
      byte_of_lt _, byte_of_lt _, fun h => absurd h hT⟩
    simp only [List.length_append, List.length_cons, List.length_nil]

theorem marshal_wire_layout_witness :
    (((0 : Int) ≤ 4660 ∧ (4660 : Int) ≤ 65535) ∧ ((0 : Int) ≤ 513 ∧ (513 : Int) ≤ 65535)) ∧
    ∃ out c2 c3,
      icmpMessage.marshal
        { Typ := 128, Code := 0, ID := 0, Seq := 0, Checksum := 0,
          Body := some { ID := 4660, Seq := 513, Data := [7, 9] } } = .ok out ∧
      out.length = 8 + [7, 9].length ∧
      out = [byte 128, byte 0, c2, c3, ((4660 : Int) / 256).toNat, ((4660 : Int) % 256).toNat,
        ((513 : Int) / 256).toNat, ((513 : Int) % 256).toNat] ++ [7, 9] ∧
      c2 < 256 ∧ c3 < 256 ∧
      ((0 : Int) ≤ 128 ∧ (128 : Int) ≤ 255 → ((byte 128 : Nat) : Int) = 128) ∧
      ((0 : Int) ≤ 0 ∧ (0 : Int) ≤ 255 → ((byte 0 : Nat) : Int) = 0) ∧
      ((128 : Int) = icmpv6EchoRequest ∨ (128 : Int) = icmpv6EchoReply → c2 = 0 ∧ c3 = 0) :=
  ⟨by decide,
    marshal_wire_layout
      { Typ := 128, Code := 0, ID := 0, Seq := 0, Checksum := 0,
        Body := some { ID := 4660, Seq := 513, Data := [7, 9] } }
      { ID := 4660, Seq := 513, Data := [7, 9] } rfl (by decide) (by decide)⟩

/-- C5 (evaluation at the failing inputs). On inputs of four, five, six and
seven bytes `parseICMPMessage` neither returns a message nor its error: the
index expressions `b[4]`, `b[5]` and `b[7]` of line 172 abort it. -/
theorem parseICMPMessage_aborts_on_short_input :
    parseICMPMessage [8, 0, 247, 255] = .error .indexOutOfRange ∧
    parseICMPMessage [8, 0, 247, 255, 0] = .error .indexOutOfRange ∧
    parseICMPMessage [8, 0, 247, 255, 0, 1] = .error .indexOutOfRange ∧
    parseICMPMessage [8, 0, 247, 255, 0, 1, 0] = .error .indexOutOfRange := by
  decide

/-- C6 (counterexample). The eight bytes `3 0 0 0 1 2 3 4` carry the non-Echo
type 3, yet no message with `ID = 0`, `Seq = 0` and no body is returned for
them: the decoded message has `ID = 258` and `Seq = 4`. -/
theorem nonEcho_fields_not_zero :
    (8 ≤ [3, 0, 0, 0, 1, 2, 3, 4].length ∧
      parseICMPMessage [3, 0, 0, 0, 1, 2, 3, 4] =
        .ok { Typ := 3, Code := 0, ID := 258, Seq := 4, Checksum := 0, Body := none }) ∧
    ¬ ∃ r, parseICMPMessage [3, 0, 0, 0, 1, 2, 3, 4] = .ok r ∧
        r.ID = 0 ∧ r.Seq = 0 ∧ r.Body = none := by
  have h : parseICMPMessage [3, 0, 0, 0, 1, 2, 3, 4] =
      .ok { Typ := 3, Code := 0, ID := 258, Seq := 4, Checksum := 0, Body := none } := by
    decide
  refine ⟨⟨by decide, h⟩, ?_⟩
  rintro ⟨r, hr, hID, -, -⟩
  rw [h] at hr
  injection hr with hr
  subst hr
  exact absurd hID (by decide)

/-- C6 (amended). For every byte sequence of at least eight bytes whose type
byte is none of 8, 0, 128, 129, `parseICMPMessage` returns a message without
echo body whose type and code are the first two bytes and whose top-level
identifier is read from bytes 4 and 5, high byte first, whatever the type; the
identifier and the sequence number are both 0 when bytes 4 to 7 are all 0. -/
theorem nonEcho_fields (b : Bytes) (hlen : 8 ≤ b.length) (hb : IsBytes b)
    (ht : ¬ ((b.getD 0 0 : Int) = icmpv4EchoRequest ∨ (b.getD 0 0 : Int) = icmpv4EchoReply ∨
      (b.getD 0 0 : Int) = icmpv6EchoRequest ∨ (b.getD 0 0 : Int) = icmpv6EchoReply)) :
    ∃ r, parseICMPMessage b = .ok r ∧ r.Body = none ∧
      r.Typ = (b.getD 0 0 : Int) ∧ r.Code = (b.getD 1 0 : Int) ∧
      r.ID = (b.getD 4 0 : Int) * 256 + (b.getD 5 0 : Int) ∧
      (b.getD 4 0 = 0 ∧ b.getD 5 0 = 0 ∧ b.getD 6 0 = 0 ∧ b.getD 7 0 = 0 →
        r.ID = 0 ∧ r.Seq = 0) := by
  obtain ⟨t, c, k2, k3, i1, i2, s1, s2, data, rfl⟩ := exists_eight b hlen
  have hi2 : i2 < 256 := hb i2 (by simp)
  simp only [List.getD_cons_zero, List.getD_cons_succ] at ht ⊢
  refine ⟨_, parseICMPMessage_eq _ _ _ _ _ _ _ _ _, ?_, rfl, rfl, ?_, ?_⟩
  · simp only [if_neg ht]
  · simp only [shl_or i1 i2 hi2]
    push_cast
    rfl
  · rintro ⟨h4, h5, -, h7⟩
    subst h4 h5 h7
    exact ⟨rfl, rfl⟩

theorem nonEcho_fields_witness :
    (8 ≤ [3, 1, 0, 0, 1, 2, 3, 4, 69].length ∧ IsBytes [3, 1, 0, 0, 1, 2, 3, 4, 69] ∧
      ¬ ((([3, 1, 0, 0, 1, 2, 3, 4, 69] : Bytes).getD 0 0 : Int) = icmpv4EchoRequest ∨
        (([3, 1, 0, 0, 1, 2, 3, 4, 69] : Bytes).getD 0 0 : Int) = icmpv4EchoReply ∨
        (([3, 1, 0, 0, 1, 2, 3, 4, 69] : Bytes).getD 0 0 : Int) = icmpv6EchoRequest ∨
        (([3, 1, 0, 0, 1, 2, 3, 4, 69] : Bytes).getD 0 0 : Int) = icmpv6EchoReply)) ∧
    ∃ r, parseICMPMessage [3, 1, 0, 0, 1, 2, 3, 4, 69] = .ok r ∧ r.Body = none ∧
      r.Typ = (([3, 1, 0, 0, 1, 2, 3, 4, 69] : Bytes).getD 0 0 : Int) ∧
      r.Code = (([3, 1, 0, 0, 1, 2, 3, 4, 69] : Bytes).getD 1 0 : Int) ∧
      r.ID = (([3, 1, 0, 0, 1, 2, 3, 4, 69] : Bytes).getD 4 0 : Int) * 256 +
        (([3, 1, 0, 0, 1, 2, 3, 4, 69] : Bytes).getD 5 0 : Int) ∧
      (([3, 1, 0, 0, 1, 2, 3, 4, 69] : Bytes).getD 4 0 = 0 ∧
        ([3, 1, 0, 0, 1, 2, 3, 4, 69] : Bytes).getD 5 0 = 0 ∧
        ([3, 1, 0, 0, 1, 2, 3, 4, 69] : Bytes).getD 6 0 = 0 ∧
        ([3, 1, 0, 0, 1, 2, 3, 4, 69] : Bytes).getD 7 0 = 0 → r.ID = 0 ∧ r.Seq = 0) :=
  ⟨⟨by decide, by unfold IsBytes; decide, by decide⟩,
    nonEcho_fields [3, 1, 0, 0, 1, 2, 3, 4, 69] (by decide) (by unfold IsBytes; decide)
      (by decide)⟩

/-- C7. IP header stripping, standard header: for a 20-byte header `h` whose
first byte has 5 in its low four bits and any byte sequence `p`, the empty one
included, `ipPayload (h ++ p)` is exactly `p`; and an input `b` of fewer than 20
bytes is returned unchanged. -/
theorem ipPayload_standard_header (h p b : Bytes) (hlen : h.length = 20)
    (hihl : h.headD 0 % 16 = 5) (hb : b.length < 20) :
    ipPayload (h ++ p) = .ok p ∧ ipPayload b = .ok b := by
  constructor
  · match h, hlen with
    | x :: rest, hlen =>
      simp only [List.headD_cons] at hihl
      simp only [List.length_cons] at hlen
      have e : x :: rest ++ p = x :: (rest ++ p) := rfl
      rw [e, ipPayload_eq x (rest ++ p) (by simp only [List.length_append]; omega), hihl]
      have h1 : ¬ 4 * 5 > (x :: (rest ++ p)).length := by
        simp only [List.length_cons, List.length_append]; omega
      rw [if_neg h1, ← e]
      have h2 : 4 * 5 = (x :: rest).length := by simp only [List.length_cons]; omega
      rw [h2, List.drop_left]
  · unfold ipPayload
    simp only [hb, if_true]

theorem ipPayload_standard_header_witness :
    (([69, 0, 0, 28, 0, 0, 0, 0, 64, 1, 0, 0, 10, 0, 0, 1, 10, 0, 0, 2] : Bytes).length = 20 ∧
      ([69, 0, 0, 28, 0, 0, 0, 0, 64, 1, 0, 0, 10, 0, 0, 1, 10, 0, 0, 2] : Bytes).headD 0 % 16 = 5 ∧
      ([1, 2, 3] : Bytes).length < 20) ∧
    (ipPayload ([69, 0, 0, 28, 0, 0, 0, 0, 64, 1, 0, 0, 10, 0, 0, 1, 10, 0, 0, 2] ++
        [0, 0, 255, 255, 0, 0, 0, 0]) = .ok [0, 0, 255, 255, 0, 0, 0, 0] ∧
      ipPayload [1, 2, 3] = .ok [1, 2, 3]) :=
  ⟨by decide,
    ipPayload_standard_header [69, 0, 0, 28, 0, 0, 0, 0, 64, 1, 0, 0, 10, 0, 0, 1, 10, 0, 0, 2]
      [0, 0, 255, 255, 0, 0, 0, 0] [1, 2, 3] (by decide) (by decide) (by decide)⟩

/-- C8 (evaluation at the failing input). On the 28-byte buffer `sendPackage`
reads into, a first byte `0x48` (an IPv4 header of eight 32-bit words) makes
`ipPayload` compute `hdrlen = 32`, and the slice expression `b[hdrlen:]`
aborts; the same happens on a 20-byte input whose first byte is `0x4f`. -/
theorem ipPayload_aborts_on_long_header :
    ipPayload (0x48 :: List.replicate 27 0) = .error .sliceOutOfRange ∧
    ipPayload (0x4f :: List.replicate 19 0) = .error .sliceOutOfRange := by
  decide

/-- C9. Sequence accounting: for every sequence of `k` per-attempt outcomes,
each a success with its elapsed time or a failure other than a missing
permission, `CheckPing` with `numPkg = k` returns without error; the count it
reports as sent is `k`, the count it reports as received is the number of
successes, the count it reports as lost is the returned `pkgLoss`, and
received plus lost is `k`. With no attempt at all the three counts are 0. -/
theorem sequence_accounting (os : List SendResult)
    (hperm : ∀ o ∈ os, o.notPermitted = false) :
    ∃ r, CheckPing (replay os) (os.length : Int) = .ok r ∧
      r.msg.enviado = (os.length : Int) ∧
      r.msg.recebido = ((os.filter SendResult.isOk).length : Int) ∧
      r.msg.perdido = r.pkgLoss ∧
      r.msg.recebido + r.pkgLoss = (os.length : Int) ∧
      (os = [] → r.msg.enviado = 0 ∧ r.msg.recebido = 0 ∧ r.pkgLoss = 0) := by
  obtain ⟨st, h1, h2, h3⟩ := runAttempts_counts os 1 PingState.init hperm
  simp only [PingState.init, zero_add] at h2 h3
  unfold CheckPing
  rw [checkLoop_replay_init, h1]
  refine ⟨_, rfl, rfl, h2, rfl, ?_, ?_⟩
  · show st.pkgReceived + st.pkgLoss = _
    omega
  · intro he
    subst he
    simp only [List.length_nil, Nat.cast_zero, List.filter_nil] at h2 h3 ⊢
    refine ⟨trivial, h2, ?_⟩
    show st.pkgLoss = 0
    omega

theorem sequence_accounting_witness :
    (∀ o ∈ [SendResult.ok 12, SendResult.err "read ip 10.0.0.1: i/o timeout", SendResult.ok 7],
        o.notPermitted = false) ∧
    ∃ r,
      CheckPing
          (replay [SendResult.ok 12, SendResult.err "read ip 10.0.0.1: i/o timeout",
            SendResult.ok 7])
          (([SendResult.ok 12, SendResult.err "read ip 10.0.0.1: i/o timeout",
            SendResult.ok 7].length : Nat) : Int) = .ok r ∧
      r.msg.enviado =
        (([SendResult.ok 12, SendResult.err "read ip 10.0.0.1: i/o timeout",
          SendResult.ok 7].length : Nat) : Int) ∧
      r.msg.recebido =
        ((([SendResult.ok 12, SendResult.err "read ip 10.0.0.1: i/o timeout",
          SendResult.ok 7].filter SendResult.isOk).length : Nat) : Int) ∧
      r.msg.perdido = r.pkgLoss ∧
      r.msg.recebido + r.pkgLoss =
        (([SendResult.ok 12, SendResult.err "read ip 10.0.0.1: i/o timeout",
          SendResult.ok 7].length : Nat) : Int) ∧
      ([SendResult.ok 12, SendResult.err "read ip 10.0.0.1: i/o timeout", SendResult.ok 7] = [] →
        r.msg.enviado = 0 ∧ r.msg.recebido = 0 ∧ r.pkgLoss = 0) :=
  ⟨by decide,
    sequence_accounting
      [SendResult.ok 12, SendResult.err "read ip 10.0.0.1: i/o timeout", SendResult.ok 7]
      (by decide)⟩

/-- C10 (evaluation at the failing input). When the first of two attempts
times out and the second succeeds after 5 ms, `CheckPing` returns
`minTts = 0`, not the 5 ms of the only successful attempt: the test of line 61
is `i == 1`, which the first successful attempt does not meet here. -/
theorem minTts_not_set_after_first_failure :
    CheckPing (replay [SendResult.err "read ip 10.0.0.1: i/o timeout", SendResult.ok 5]) 2 =
      .ok { msg := { enviado := 2, recebido := 1, perdido := 1, media := some 5 },
            pkgLoss := 1, minTts := 0, mediaTts := 5, maxTts := 5 } := by
  have hc : stringsContains "read ip 10.0.0.1: i/o timeout" "operation not permitted" = false := by
    decide
  have h := checkLoop_replay_init
    [SendResult.err "read ip 10.0.0.1: i/o timeout", SendResult.ok 5]
  simp only [List.length_cons, List.length_nil] at h
  unfold CheckPing
  norm_num at h ⊢
  rw [h]
  norm_num [runAttempts, hc, PingState.init, bind, Except.bind]

/-- C11. Latency ordering: for every sequence of per-attempt outcomes without
permission failure in which at least one attempt succeeds, `CheckPing` returns
its statistics, the returned `mediaTts` is the sum of the successful elapsed
times divided by their number, and `minTts <= mediaTts <= maxTts`, the times
being exact rationals.  The proof does not use that the times are
non-negative, so the ordering holds for them in particular. -/
theorem latency_ordering (os : List SendResult) (hperm : ∀ o ∈ os, o.notPermitted = false)
    (hsucc : elapsedTimes os ≠ []) :
    ∃ r, CheckPing (replay os) (os.length : Int) = .ok r ∧
      r.mediaTts = (elapsedTimes os).sum / ((elapsedTimes os).length : ℚ) ∧
      r.minTts ≤ r.mediaTts ∧ r.mediaTts ≤ r.maxTts := by
  obtain ⟨st, h1, h2, h3, h4, h5⟩ := runAttempts_stats os 1 PingState.init hperm (le_refl _)
    (fun _ => rfl) (le_refl _) (by simp [PingState.init]) (by simp [PingState.init])
  simp only [PingState.init, zero_add] at h2 h3
  have hlen : 0 < (elapsedTimes os).length := List.length_pos.mpr hsucc
  have hpos : st.pkgReceived > 0 := by rw [h2]; exact_mod_cast hlen
  have hq : (0 : ℚ) < (st.pkgReceived : ℚ) := by exact_mod_cast hpos
  have hcast : (st.pkgReceived : ℚ) = ((elapsedTimes os).length : ℚ) := by
    rw [h2]; push_cast; rfl
  unfold CheckPing
  rw [checkLoop_replay_init, h1]
  refine ⟨_, rfl, ?_, ?_, ?_⟩
  · show (if st.pkgReceived > 0 then st.mediaTts / (st.pkgReceived : ℚ) else st.mediaTts) = _
    rw [if_pos hpos, h3, hcast]
  · show st.minTts ≤ (if st.pkgReceived > 0 then st.mediaTts / (st.pkgReceived : ℚ)
      else st.mediaTts)
    rw [if_pos hpos]
    exact (le_div_iff₀ hq).2 h4
  · show (if st.pkgReceived > 0 then st.mediaTts / (st.pkgReceived : ℚ) else st.mediaTts)
      ≤ st.maxTts
    rw [if_pos hpos]
    exact (div_le_iff₀ hq).2 h5

theorem latency_ordering_witness :
    ((∀ o ∈ [SendResult.err "read ip 10.0.0.1: i/o timeout", SendResult.ok 12, SendResult.ok 7],
        o.notPermitted = false) ∧
      elapsedTimes [SendResult.err "read ip 10.0.0.1: i/o timeout", SendResult.ok 12,
        SendResult.ok 7] ≠ []) ∧
    ∃ r,
      CheckPing
          (replay [SendResult.err "read ip 10.0.0.1: i/o timeout", SendResult.ok 12,
            SendResult.ok 7])
          (([SendResult.err "read ip 10.0.0.1: i/o timeout", SendResult.ok 12,
            SendResult.ok 7].length : Nat) : Int) = .ok r ∧
      r.mediaTts =
        (elapsedTimes [SendResult.err "read ip 10.0.0.1: i/o timeout", SendResult.ok 12,
          SendResult.ok 7]).sum /
        (((elapsedTimes [SendResult.err "read ip 10.0.0.1: i/o timeout", SendResult.ok 12,
          SendResult.ok 7]).length : Nat) : ℚ) ∧
      r.minTts ≤ r.mediaTts ∧ r.mediaTts ≤ r.maxTts :=
  ⟨⟨by decide, by simp [elapsedTimes]⟩,
    latency_ordering
      [SendResult.err "read ip 10.0.0.1: i/o timeout", SendResult.ok 12, SendResult.ok 7]
      (by decide) (by simp [elapsedTimes])⟩

/-- C15. Only a permission failure escapes the probe sequence: for every
sequence of per-attempt outcomes, `CheckPing` returns an error exactly when some
attempt fails with an error whose text contains "operation not permitted"; the
run then consists of the attempts up to the first such failure and no further
one, and its error is that of line 55 whatever the later outcomes would be;
when no attempt fails in that way every attempt is made, `CheckPing` returns
without error, and every failure is counted as one lost packet. -/
theorem only_permission_failure_escapes (os : List SendResult) :
    ((∃ f, CheckPing (replay os) (os.length : Int) = .error f) ↔
      ∃ o ∈ os, o.notPermitted = true) ∧
    (∀ pre text post, os = pre ++ SendResult.err text :: post →
      (∀ o ∈ pre, o.notPermitted = false) →
      stringsContains text "operation not permitted" = true →
      CheckPing (replay os) (os.length : Int) = .error (.error "Operação não permitida!") ∧
      attemptsMade (replay os) (os.length : Int) = pre.length + 1) ∧
    ((∀ o ∈ os, o.notPermitted = false) →
      ∃ r, CheckPing (replay os) (os.length : Int) = .ok r ∧
        r.pkgLoss = ((os.filter fun o => !o.isOk).length : Int) ∧
        attemptsMade (replay os) (os.length : Int) = os.length) := by
  have hperm : (∃ o ∈ os, o.notPermitted = true) →
      CheckPing (replay os) (os.length : Int) = .error (.error "Operação não permitida!") := by
    intro h
    unfold CheckPing
    rw [checkLoop_replay_init, runAttempts_permission os 1 PingState.init h]
    rfl
  have hclean : (∀ o ∈ os, o.notPermitted = false) →
      ∃ r, CheckPing (replay os) (os.length : Int) = .ok r ∧
        r.pkgLoss = ((os.filter fun o => !o.isOk).length : Int) := by
    intro h
    obtain ⟨st, h1, h2⟩ := runAttempts_lost os 1 PingState.init h
    unfold CheckPing
    rw [checkLoop_replay_init, h1]
    refine ⟨_, rfl, ?_⟩
    show st.pkgLoss = _
    rw [h2]
    simp [PingState.init]
  refine ⟨⟨?_, fun h => ⟨_, hperm h⟩⟩, ?_, ?_⟩
  · rintro ⟨f, hf⟩
    by_contra hno
    have hall : ∀ o ∈ os, o.notPermitted = false := by
      intro o ho
      by_contra hc
      exact hno ⟨o, ho, by simpa using hc⟩
    obtain ⟨r, hr, _⟩ := hclean hall
    rw [hr] at hf
    cases hf
  · intro pre text post hos hpre htext
    refine ⟨hperm ⟨SendResult.err text, by rw [hos]; simp, by simpa [SendResult.notPermitted]⟩, ?_⟩
    rw [attemptsMade_replay, hos]
    exact callsOf_first_permission pre _ post hpre (by simpa [SendResult.notPermitted])
  · intro h
    obtain ⟨r, hr, hl⟩ := hclean h
    exact ⟨r, hr, hl, by rw [attemptsMade_replay, callsOf_clean os h]⟩

theorem only_permission_failure_escapes_witness :
    ([SendResult.ok 12, SendResult.err "read ip 10.0.0.1: i/o timeout",
        SendResult.err "dial ip:icmp 10.0.0.1: socket: operation not permitted", SendResult.ok 7] =
        [SendResult.ok 12, SendResult.err "read ip 10.0.0.1: i/o timeout"] ++
          SendResult.err "dial ip:icmp 10.0.0.1: socket: operation not permitted" ::
            [SendResult.ok 7] ∧
      (∀ o ∈ [SendResult.ok 12, SendResult.err "read ip 10.0.0.1: i/o timeout"],
        o.notPermitted = false) ∧
      stringsContains "dial ip:icmp 10.0.0.1: socket: operation not permitted"
        "operation not permitted" = true) ∧
    (CheckPing
        (replay [SendResult.ok 12, SendResult.err "read ip 10.0.0.1: i/o timeout",
          SendResult.err "dial ip:icmp 10.0.0.1: socket: operation not permitted",
          SendResult.ok 7])
        (([SendResult.ok 12, SendResult.err "read ip 10.0.0.1: i/o timeout",
          SendResult.err "dial ip:icmp 10.0.0.1: socket: operation not permitted",
          SendResult.ok 7].length : Nat) : Int) = .error (.error "Operação não permitida!") ∧
      attemptsMade
        (replay [SendResult.ok 12, SendResult.err "read ip 10.0.0.1: i/o timeout",
          SendResult.err "dial ip:icmp 10.0.0.1: socket: operation not permitted",
          SendResult.ok 7])
        (([SendResult.ok 12, SendResult.err "read ip 10.0.0.1: i/o timeout",
          SendResult.err "dial ip:icmp 10.0.0.1: socket: operation not permitted",
          SendResult.ok 7].length : Nat) : Int) =
        [SendResult.ok 12, SendResult.err "read ip 10.0.0.1: i/o timeout"].length + 1) :=
  ⟨⟨rfl, by decide, by decide⟩,
    (only_permission_failure_escapes
      [SendResult.ok 12, SendResult.err "read ip 10.0.0.1: i/o timeout",
        SendResult.err "dial ip:icmp 10.0.0.1: socket: operation not permitted",
        SendResult.ok 7]).2.1
      [SendResult.ok 12, SendResult.err "read ip 10.0.0.1: i/o timeout"]
      "dial ip:icmp 10.0.0.1: socket: operation not permitted" [SendResult.ok 7] rfl
      (by decide) (by decide)⟩

/-- C12 (evaluation at the failing input). The identifier is 1 and the attempt
is 1, so the request carries the pair (1, 2). The first datagram read is that
request itself, looped back behind a 20-byte IP header: it matches the pair and
has type 8, not 0. `sendPackage` then returns the value 0 with a `nil` error
(line 133 returns the `err` that line 125 found to be `nil`), and `CheckPing`
counts the packet as received. -/
theorem matching_reply_of_wrong_kind_is_success :
    sendPackage
        { resolve := .ok true, dial := none, write := none, beginTime := 1000,
          incoming :=
            [{ rb := [69, 0, 0, 28, 0, 0, 0, 0, 64, 1, 0, 0, 127, 0, 0, 1, 127, 0, 0, 1,
                      8, 0, 247, 252, 0, 1, 0, 2],
               now := 2001000 }],
          readError := "read ip 127.0.0.1: i/o timeout" } 1 1 = .ok 0 ∧
    outcome (.ok 0) = some (SendResult.ok 0) ∧
    CheckPing (replay [SendResult.ok 0]) 1 =
      .ok { msg := { enviado := 1, recebido := 1, perdido := 0, media := some 0 },
            pkgLoss := 0, minTts := 0, mediaTts := 0, maxTts := 0 } := by
  refine ⟨by decide, rfl, ?_⟩
  have hl := checkLoop_replay_init [SendResult.ok 0]
  simp only [List.length_cons, List.length_nil] at hl
  unfold CheckPing
  norm_num at hl ⊢
  rw [hl]
  norm_num [runAttempts, PingState.init, bind, Except.bind]

/-- C13 (evaluation at the failing input). The request is that of identifier 7
and attempt 1, so it carries the pair (7, 2). The only datagram read is an Echo
Reply that carries the pair (7, 258): its sequence number differs from the
request's in the high byte. `parseICMPMessage` reads the top-level `Seq` from
the low byte alone, the test of line 128 holds, and `sendPackage` returns
success after 2 ms, counted as received by `CheckPing`; on the rest of the
stream alone, which is empty, it returns the timeout of the read. -/
theorem reply_with_other_sequence_number_is_accepted :
    (ipPayload [69, 0, 0, 28, 0, 0, 0, 0, 64, 1, 0, 0, 10, 0, 0, 2, 10, 0, 0, 1,
        0, 0, 254, 246, 0, 7, 1, 2] >>= parseICMPMessage) =
      .ok { Typ := 0, Code := 0, ID := 7, Seq := 2, Checksum := 65270,
            Body := some { ID := 7, Seq := 258, Data := [] } } ∧
    sendPackage
        { resolve := .ok true, dial := none, write := none, beginTime := 1000,
          incoming :=
            [{ rb := [69, 0, 0, 28, 0, 0, 0, 0, 64, 1, 0, 0, 10, 0, 0, 2, 10, 0, 0, 1,
                      0, 0, 254, 246, 0, 7, 1, 2], now := 2001000 }],
          readError := "read ip 10.0.0.2: i/o timeout" } 7 1 = .ok 2 ∧
    sendPackage
        { resolve := .ok true, dial := none, write := none, beginTime := 1000,
          incoming := [],
          readError := "read ip 10.0.0.2: i/o timeout" } 7 1 =
      .error (.error "read ip 10.0.0.2: i/o timeout") ∧
    CheckPing (replay [SendResult.ok 2]) 1 =
      .ok { msg := { enviado := 1, recebido := 1, perdido := 0, media := some 2 },
            pkgLoss := 0, minTts := 2, mediaTts := 2, maxTts := 2 } := by
  have hdec : (ipPayload [69, 0, 0, 28, 0, 0, 0, 0, 64, 1, 0, 0, 10, 0, 0, 2, 10, 0, 0, 1,
      0, 0, 254, 246, 0, 7, 1, 2] >>= parseICMPMessage) =
      .ok { Typ := 0, Code := 0, ID := 7, Seq := 2, Checksum := 65270,
            Body := some { ID := 7, Seq := 258, Data := [] } } := by decide
  refine ⟨hdec, ?_, by decide, ?_⟩
  · rw [sendPackage_connected _ 7 1 true rfl rfl rfl,
      readLoop_matched _ _ _ _ _ _ _ hdec (by decide)]
    norm_num
  · have hl := checkLoop_replay_init [SendResult.ok 2]
    simp only [List.length_cons, List.length_nil] at hl
    unfold CheckPing
    norm_num at hl ⊢
    rw [hl]
    norm_num [runAttempts, PingState.init, bind, Except.bind]

/-- C14 (counterexample). The request carries the pair (1, 2). The first
datagram read has `0x47` as its first byte, so that nothing is left of the 28
bytes after the IP header and `parseICMPMessage` returns its error; the second
is the matching Echo Reply. `sendPackage` returns the decoding error and the
packet is lost, whereas on the second datagram alone it returns 2 ms. -/
theorem malformed_datagram_loses_the_packet :
    sendPackage
        { resolve := .ok true, dial := none, write := none, beginTime := 1000,
          incoming :=
            [{ rb := [71, 0, 0, 28, 0, 0, 0, 0, 64, 1, 0, 0, 10, 0, 0, 2, 10, 0, 0, 1,
                      0, 0, 0, 0, 0, 0, 0, 0], now := 1001000 },
             { rb := [69, 0, 0, 28, 0, 0, 0, 0, 64, 1, 0, 0, 10, 0, 0, 2, 10, 0, 0, 1,
                      0, 0, 255, 252, 0, 1, 0, 2], now := 2001000 }],
          readError := "read ip 10.0.0.2: i/o timeout" } 1 1 =
      .error (.error "Mensagem muito curta") ∧
    sendPackage
        { resolve := .ok true, dial := none, write := none, beginTime := 1000,
          incoming :=
            [{ rb := [69, 0, 0, 28, 0, 0, 0, 0, 64, 1, 0, 0, 10, 0, 0, 2, 10, 0, 0, 1,
                      0, 0, 255, 252, 0, 1, 0, 2], now := 2001000 }],
          readError := "read ip 10.0.0.2: i/o timeout" } 1 1 = .ok 2 ∧
    CheckPing (replay [SendResult.err "Mensagem muito curta"]) 1 =
      .ok { msg := { enviado := 1, recebido := 0, perdido := 1, media := none },
            pkgLoss := 1, minTts := 0, mediaTts := 0, maxTts := 0 } := by
  refine ⟨by decide, ?_, checkPing_single_failure _ (by decide)⟩
  have hdec : (ipPayload [69, 0, 0, 28, 0, 0, 0, 0, 64, 1, 0, 0, 10, 0, 0, 2, 10, 0, 0, 1,
      0, 0, 255, 252, 0, 1, 0, 2] >>= parseICMPMessage) =
      .ok { Typ := 0, Code := 0, ID := 1, Seq := 2, Checksum := 65532,
            Body := some { ID := 1, Seq := 2, Data := [] } } := by decide
  rw [sendPackage_connected _ 1 1 true rfl rfl rfl,
    readLoop_matched _ _ _ _ _ _ _ hdec (by decide)]
  norm_num

/-- C14 (amended). Malformed datagrams end the wait: whenever a datagram read
while `sendPackage` is waiting fails to decode, that is `parseICMPMessage`
returns its error, the read loop stops and `sendPackage` returns that error
whatever datagrams remain in the stream; the error is "Mensagem muito curta",
and `CheckPing` counts the packet as lost. -/
theorem malformed_datagram_ends_wait (net : Transport) (code n : Int)
    (d : Datagram) (rest : List Datagram) (text : String)
    (hdec : (ipPayload d.rb >>= parseICMPMessage) = .error (.error text)) :
    readLoop code (n + 1) net.beginTime net.readError (d :: rest) = .error (.error text) ∧
    sendPackage { net with incoming := d :: rest } code n =
      sendPackage { net with incoming := [d] } code n ∧
    text = "Mensagem muito curta" ∧
    outcome (readLoop code (n + 1) net.beginTime net.readError (d :: rest)) =
      some (SendResult.err text) ∧
    CheckPing (replay [SendResult.err text]) 1 =
      .ok { msg := { enviado := 1, recebido := 0, perdido := 1, media := none },
            pkgLoss := 1, minTts := 0, mediaTts := 0, maxTts := 0 } := by
  have h1 := readLoop_fault code (n + 1) net.beginTime net.readError d rest _ hdec
  have h2 := readLoop_fault code (n + 1) net.beginTime net.readError d [] _ hdec
  have ht := decode_error_text d.rb text hdec
  refine ⟨h1, sendPackage_incoming net code n _ _ (by rw [h1, h2]), ht, by rw [h1]; rfl, ?_⟩
  apply checkPing_single_failure
  rw [ht]
  decide

theorem malformed_datagram_ends_wait_witness :
    ((ipPayload [71, 0, 0, 28, 0, 0, 0, 0, 64, 1, 0, 0, 10, 0, 0, 2, 10, 0, 0, 1,
        0, 0, 0, 0, 0, 0, 0, 0] >>= parseICMPMessage) =
      .error (.error "Mensagem muito curta")) ∧
    readLoop 1 (1 + 1) 1000 "read ip 10.0.0.2: i/o timeout"
        ({ rb := [71, 0, 0, 28, 0, 0, 0, 0, 64, 1, 0, 0, 10, 0, 0, 2, 10, 0, 0, 1,
                  0, 0, 0, 0, 0, 0, 0, 0], now := 1001000 } ::
          [{ rb := [69, 0, 0, 28, 0, 0, 0, 0, 64, 1, 0, 0, 10, 0, 0, 2, 10, 0, 0, 1,
                    0, 0, 255, 252, 0, 1, 0, 2], now := 2001000 }]) =
      .error (.error "Mensagem muito curta") :=
  ⟨by decide,
    (malformed_datagram_ends_wait
      { resolve := .ok true, dial := none, write := none, beginTime := 1000,
        incoming := [], readError := "read ip 10.0.0.2: i/o timeout" } 1 1
      { rb := [71, 0, 0, 28, 0, 0, 0, 0, 64, 1, 0, 0, 10, 0, 0, 2, 10, 0, 0, 1,
               0, 0, 0, 0, 0, 0, 0, 0], now := 1001000 }
      [{ rb := [69, 0, 0, 28, 0, 0, 0, 0, 64, 1, 0, 0, 10, 0, 0, 2, 10, 0, 0, 1,
                0, 0, 255, 252, 0, 1, 0, 2], now := 2001000 }]
      "Mensagem muito curta" (by decide)).1⟩

/-- C16 (counterexample). With the limit `-1`, which `init` accepts since it
rejects 0 only, and one host, `main` leaves its wait at once (the counter 0
differs from `-1`) and admits the host: a state with counter 1 and one running
sequence is reached, above the limit. The initial counter 0 is above it
already. -/
theorem negative_limit_is_exceeded :
    Reachable (-1) 1 { group := { count := 1 }, hosts := 0, passed := false, running := 1 } ∧
    ¬ ((1 : Int) ≤ -1) ∧
    Reachable (-1) 1 (Dispatch.init 1) ∧ ¬ ((Dispatch.init 1).group.count ≤ -1) := by
  refine ⟨?_, by decide, Reachable.init, by decide⟩
  have h1 : Reachable (-1) 1
      { group := { count := 0 }, hosts := 1, passed := true, running := 0 } :=
    Reachable.step _ _ Reachable.init
      (Step.leaveWait (Dispatch.init 1) rfl (by decide) (by decide))
  exact Reachable.step _ _ h1 (Step.launch _ rfl)

/-- C16 (amended). Concurrency bound: the dispatcher being the step relation on
the counter of `Int64Mut` that starts at 0, whose steps are `main` leaving its
wait once `Status()` differs from the limit `L`, `main` calling `Add(1)` and
starting a sequence, and a running sequence calling `Dec`: for every limit
`L >= 0` and every number of hosts, in every reachable state the counter is the
number of running sequences and is at most `L`. -/
theorem concurrency_bound (L : Int) (n : Nat) (hL : 0 ≤ L) (s : Dispatch)
    (h : Reachable L n s) :
    s.group.Status = (s.running : Int) ∧ s.group.Status ≤ L := by
  obtain ⟨h1, h2, _⟩ := dispatch_invariant L n hL s h
  exact ⟨h1, h2⟩

theorem concurrency_bound_witness :
    ((0 : Int) ≤ 1 ∧
      Reachable 1 2 { group := { count := 1 }, hosts := 1, passed := false, running := 1 }) ∧
    (({ group := { count := 1 }, hosts := 1, passed := false, running := 1 } :
        Dispatch).group.Status = ((1 : Nat) : Int) ∧
      ({ group := { count := 1 }, hosts := 1, passed := false, running := 1 } :
        Dispatch).group.Status ≤ 1) :=
  have hr : Reachable 1 2
      { group := { count := 1 }, hosts := 1, passed := false, running := 1 } :=
    Reachable.step _ _
      (Reachable.step _ _ Reachable.init
        (Step.leaveWait (Dispatch.init 2) rfl (by decide) (by decide)))
      (Step.launch _ rfl)
  ⟨⟨by decide, hr⟩, concurrency_bound 1 2 (by decide) _ hr⟩

/-- C17 (evaluation at the failing input). After a single successful echo with
a measured round trip of 250 ms the argument of `time.Sleep` is 999999750 ns,
that is 1 s minus 250 ns, not the 750 ms of the claim: `time.Duration(timePackage)`
at line 67 takes the number of milliseconds for a number of nanoseconds. -/
theorem pause_subtracts_nanoseconds :
    checkLoop (replay [SendResult.ok 250]) 1 1 1 PingState.init =
      .ok { pkgLoss := 0, pkgReceived := 1, minTts := 250, maxTts := 250, mediaTts := 250,
            pauses := [999999750] } ∧
    (999999750 : Int) ≠ 1000000 * (1000 - 250) := by
  refine ⟨?_, by decide⟩
  norm_num [checkLoop, replay, PingState.init, truncate]

/-- C18 (counterexample). For the identifier 7 and the first attempt, the request
`sendPackage` builds and encodes carries the sequence number 2, not 1. -/
theorem first_request_carries_sequence_two :
    (echoRequest icmpv4EchoRequest 7 1).Body = some { ID := 7, Seq := 2, Data := [] } ∧
    (echoRequest icmpv4EchoRequest 7 1).marshal = .ok [8, 0, 247, 246, 0, 7, 0, 2] ∧
    ((echoRequest icmpv4EchoRequest 7 1).marshal >>= parseICMPMessage) =
      .ok { Typ := 8, Code := 0, ID := 7, Seq := 2, Checksum := 63478,
            Body := some { ID := 7, Seq := 2, Data := [] } } := by
  decide

/-- C18 (amended). Sequence numbering: for every attempt `i >= 1` and every
identifier supplied by the caller, both within 16 bits, the Echo Request that
`sendPackage` builds for the `i`-th attempt carries the sequence number `i + 1`
and that identifier; and `sendPackage` returns without error for that attempt
only when one of the datagrams read decodes to a message whose top-level
identifier is the caller's and whose top-level sequence number is `i + 1`. -/
theorem request_numbering (net : Transport) (typ codigo i : Int)
    (htyp : typ = icmpv4EchoRequest ∨ typ = icmpv6EchoRequest)
    (hcod : 0 ≤ codigo ∧ codigo ≤ 65535) (hi : 1 ≤ i ∧ i + 1 ≤ 65535) :
    (∃ wb r, (echoRequest typ codigo i).marshal = .ok wb ∧ parseICMPMessage wb = .ok r ∧
      r.Typ = typ ∧ r.Code = 0 ∧
      r.Body = some { ID := codigo, Seq := i + 1, Data := [] }) ∧
    (∀ t, sendPackage net codigo i = .ok t →
      ∃ d ∈ net.incoming, ∃ m, (ipPayload d.rb >>= parseICMPMessage) = .ok m ∧
        m.ID = codigo ∧ m.Seq = i + 1) := by
  refine ⟨?_, fun t ht => sendPackage_ok net codigo i t ht⟩
  have hT : 0 ≤ typ ∧ typ ≤ 255 := by
    simp only [icmpv4EchoRequest, icmpv6EchoRequest] at htyp
    omega
  have hecho : typ = icmpv4EchoRequest ∨ typ = icmpv4EchoReply ∨
      typ = icmpv6EchoRequest ∨ typ = icmpv6EchoReply := by
    rcases htyp with h | h
    · exact Or.inl h
    · exact Or.inr (Or.inr (Or.inl h))
  obtain ⟨wb, r, h1, h2, h3, h4, -, -, h5⟩ :=
    parse_marshal (echoRequest typ codigo i) { ID := codigo, Seq := i + 1, Data := [] } rfl hT hcod
  refine ⟨wb, r, h1, h2, h3, h4, ?_⟩
  have hb : (echoRequest typ codigo i).Typ = typ := rfl
  rw [h5, hb, if_pos hecho, byte_pair (i + 1) (by omega)]

theorem request_numbering_witness :
    (((8 : Int) = icmpv4EchoRequest ∨ (8 : Int) = icmpv6EchoRequest) ∧
      ((0 : Int) ≤ 7 ∧ (7 : Int) ≤ 65535) ∧ ((1 : Int) ≤ 3 ∧ (3 : Int) + 1 ≤ 65535)) ∧
    ∃ wb r, (echoRequest 8 7 3).marshal = .ok wb ∧ parseICMPMessage wb = .ok r ∧
      r.Typ = 8 ∧ r.Code = 0 ∧
      r.Body = some { ID := 7, Seq := 3 + 1, Data := [] } :=
  ⟨by decide,
    (request_numbering
      { resolve := .ok true, dial := none, write := none, beginTime := 0, incoming := [],
        readError := "read ip 10.0.0.2: i/o timeout" }
      8 7 3 (by decide) (by decide) (by decide)).1⟩

/-- C19. Checksum equals the reference definition: for every IPv4-family
message (type 8 or 0) whose encoded length is at most 65535 bytes, the exact
sum of the words of the message with a zero checksum field is below `2 ^ 32`,
so that the accumulator of `marshal`, which holds that sum, never overflows;
and bytes 2 and 3 of the output are the high and the low byte of the RFC 1071
Internet checksum of the message with the checksum field taken as zero, the
reference summing big-endian words where the code sums little-endian words and
stores the low byte first. -/
theorem checksum_is_rfc1071 (m : icmpMessage) (p : icmpEcho) (hB : m.Body = some p)
    (hT : m.Typ = icmpv4EchoRequest ∨ m.Typ = icmpv4EchoReply) (hdata : IsBytes p.Data)
    (hlen : 8 + p.Data.length ≤ 65535) :
    ∃ out, m.marshal = .ok out ∧ out.length = 8 + p.Data.length ∧
      wordSumLE ((out.set 2 0).set 3 0) < 2 ^ 32 ∧
      acc32 ((out.set 2 0).set 3 0) 0 = wordSumLE ((out.set 2 0).set 3 0) ∧
      out.get? 2 = some (internetChecksum ((out.set 2 0).set 3 0) / 256) ∧
      out.get? 3 = some (internetChecksum ((out.set 2 0).set 3 0) % 256) := by
  have hT6 : ¬ (m.Typ = icmpv6EchoRequest ∨ m.Typ = icmpv6EchoReply) := by
    simp only [icmpv4EchoRequest, icmpv4EchoReply, icmpv6EchoRequest, icmpv6EchoReply] at hT ⊢
    omega
  have ht : byte m.Typ ≤ 8 := by
    simp only [icmpv4EchoRequest, icmpv4EchoReply] at hT
    unfold byte
    omega
  have hc := byte_lt m.Code
  have h1 := byte_lt (p.ID >>> (8 : Nat))
  have h2 := byte_lt p.ID
  have h3 := byte_lt (p.Seq >>> (8 : Nat))
  have h4 := byte_lt p.Seq
  have hb : IsBytes (byte m.Typ :: byte m.Code :: 0 :: 0 :: byte (p.ID >>> (8 : Nat)) ::
      byte p.ID :: byte (p.Seq >>> (8 : Nat)) :: byte p.Seq :: p.Data) :=
    isBytes_cons _ _ (by omega) (isBytes_cons _ _ hc (isBytes_cons _ _ (by norm_num)
      (isBytes_cons _ _ (by norm_num) (isBytes_cons _ _ h1 (isBytes_cons _ _ h2
      (isBytes_cons _ _ h3 (isBytes_cons _ _ h4 hdata)))))))
  have hsum : wordSumLE (byte m.Typ :: byte m.Code :: 0 :: 0 :: byte (p.ID >>> (8 : Nat)) ::
      byte p.ID :: byte (p.Seq >>> (8 : Nat)) :: byte p.Seq :: p.Data) < 2 ^ 32 := by
    have hd := wordSumLE_le p.Data hdata
    have hk : (p.Data.length + 1) / 2 ≤ 32764 := by omega
    have hd' : wordSumLE p.Data ≤ 65535 * 32764 := le_trans hd (Nat.mul_le_mul_left _ hk)
    rw [wordSumLE_eight]
    norm_num
    omega
  obtain ⟨e1, e2, e3⟩ := checksum_reference _ hb hsum
  rw [marshal_bytes m p hB, if_neg hT6]
  refine ⟨_, rfl, ?_, ?_⟩
  · simp only [List.length_append, List.length_cons, List.length_nil]
  · exact ⟨hsum, e1, congrArg some e2, congrArg some e3⟩

theorem checksum_is_rfc1071_witness :
    (((8 : Int) = icmpv4EchoRequest ∨ (8 : Int) = icmpv4EchoReply) ∧ IsBytes [1, 2, 3] ∧
      8 + ([1, 2, 3] : Bytes).length ≤ 65535) ∧
    ∃ out,
      icmpMessage.marshal
        { Typ := 8, Code := 0, ID := 0, Seq := 0, Checksum := 0,
          Body := some { ID := 4660, Seq := 2, Data := [1, 2, 3] } } = .ok out ∧
      out.length = 8 + ([1, 2, 3] : Bytes).length ∧
      wordSumLE ((out.set 2 0).set 3 0) < 2 ^ 32 ∧
      acc32 ((out.set 2 0).set 3 0) 0 = wordSumLE ((out.set 2 0).set 3 0) ∧
      out.get? 2 = some (internetChecksum ((out.set 2 0).set 3 0) / 256) ∧
      out.get? 3 = some (internetChecksum ((out.set 2 0).set 3 0) % 256) :=
  ⟨⟨by decide, by unfold IsBytes; decide, by decide⟩,
    checksum_is_rfc1071
      { Typ := 8, Code := 0, ID := 0, Seq := 0, Checksum := 0,
        Body := some { ID := 4660, Seq := 2, Data := [1, 2, 3] } }
      { ID := 4660, Seq := 2, Data := [1, 2, 3] } rfl (by decide) (by unfold IsBytes; decide)
      (by decide)⟩

/-- C20. Unmatchable requests: the top-level fields `parseICMPMessage` returns
for a byte sequence satisfy `0 <= Seq <= 255` and `0 <= ID <= 65535`; so for a
request whose sequence number is at least 256 or whose identifier is at least
65536 no datagram read passes the match test of `sendPackage`, and `sendPackage`
does not return without error. In a run of `CheckPing` whose outcomes are those
of `sendPackage` for the identifier `codigo`, and among which there is no
permission failure, no attempt `i >= 255` succeeds, so at most 254 packets are
counted as received; and with `codigo >= 65536` none is, every packet being
lost. -/
theorem unmatchable_requests (codigo : Int) (os : List SendResult)
    (hnet : ∀ k (h : k < os.length), ∃ net : Transport,
      (∀ d ∈ net.incoming, IsBytes d.rb) ∧
      outcome (sendPackage net codigo ((k : Int) + 1)) = some (os.get ⟨k, h⟩))
    (hperm : ∀ o ∈ os, o.notPermitted = false) :
    (∀ b m, IsBytes b → parseICMPMessage b = .ok m →
      0 ≤ m.Seq ∧ m.Seq ≤ 255 ∧ 0 ≤ m.ID ∧ m.ID ≤ 65535) ∧
    (∀ (net : Transport) (code n : Int), (∀ d ∈ net.incoming, IsBytes d.rb) →
      (256 ≤ n + 1 ∨ 65536 ≤ code) →
      (∀ d ∈ net.incoming, ∀ m, (ipPayload d.rb >>= parseICMPMessage) = .ok m →
        ¬ (m.ID = code ∧ m.Seq = n + 1)) ∧
      ∀ t, sendPackage net code n ≠ .ok t) ∧
    (∀ k (h : k < os.length), 254 ≤ k → (os.get ⟨k, h⟩).isOk = false) ∧
    (∃ r, CheckPing (replay os) (os.length : Int) = .ok r ∧ r.msg.recebido ≤ 254 ∧
      (65536 ≤ codigo → r.msg.recebido = 0 ∧ r.pkgLoss = (os.length : Int))) := by
  have hfail : ∀ k (h : k < os.length), (254 ≤ k ∨ 65536 ≤ codigo) →
      (os.get ⟨k, h⟩).isOk = false := by
    intro k h hk
    obtain ⟨net, hb, ho⟩ := hnet k h
    cases hget : os.get ⟨k, h⟩ with
    | err text => rfl
    | ok t =>
      rw [hget] at ho
      have hs := outcome_ok _ t ho
      have hbig : 256 ≤ ((k : Int) + 1) + 1 ∨ 65536 ≤ codigo := by omega
      exact absurd hs ((sendPackage_unmatchable net codigo _ hb hbig).2 t)
  obtain ⟨st, h1, h2, h3⟩ := runAttempts_counts os 1 PingState.init hperm
  simp only [PingState.init, zero_add] at h2 h3
  refine ⟨parse_fields_range, sendPackage_unmatchable, fun k h hk => hfail k h (Or.inl hk), ?_⟩
  unfold CheckPing
  rw [checkLoop_replay_init, h1]
  refine ⟨_, rfl, ?_, ?_⟩
  · show st.pkgReceived ≤ 254
    have hle := filter_length_le SendResult.isOk os 254 (fun k hk h254 => hfail k hk (Or.inl h254))
    rw [h2]
    exact_mod_cast hle
  · intro hbig
    have hle := filter_length_le SendResult.isOk os 0 (fun k hk _ => hfail k hk (Or.inr hbig))
    have h0 : st.pkgReceived = 0 := by
      rw [h2]
      have : (os.filter SendResult.isOk).length = 0 := by omega
      rw [this]
      rfl
    refine ⟨h0, ?_⟩
    show st.pkgLoss = _
    omega

theorem unmatchable_requests_witness :
    ((∀ k (h : k < [SendResult.err "read ip 10.0.0.2: i/o timeout"].length),
        ∃ net : Transport, (∀ d ∈ net.incoming, IsBytes d.rb) ∧
          outcome (sendPackage net 65536 ((k : Int) + 1)) =
            some ([SendResult.err "read ip 10.0.0.2: i/o timeout"].get ⟨k, h⟩)) ∧
      (∀ o ∈ [SendResult.err "read ip 10.0.0.2: i/o timeout"], o.notPermitted = false)) ∧
    ∃ r, CheckPing (replay [SendResult.err "read ip 10.0.0.2: i/o timeout"])
        (([SendResult.err "read ip 10.0.0.2: i/o timeout"].length : Nat) : Int) = .ok r ∧
      r.msg.recebido ≤ 254 ∧
      ((65536 : Int) ≤ 65536 → r.msg.recebido = 0 ∧
        r.pkgLoss = (([SendResult.err "read ip 10.0.0.2: i/o timeout"].length : Nat) : Int)) :=
  have hnet : ∀ k (h : k < [SendResult.err "read ip 10.0.0.2: i/o timeout"].length),
      ∃ net : Transport, (∀ d ∈ net.incoming, IsBytes d.rb) ∧
        outcome (sendPackage net 65536 ((k : Int) + 1)) =
          some ([SendResult.err "read ip 10.0.0.2: i/o timeout"].get ⟨k, h⟩) := by
    intro k h
    have hk : k = 0 := by simp only [List.length_cons, List.length_nil] at h; omega
    subst hk
    refine ⟨{ resolve := .ok true, dial := none, write := none, beginTime := 1000,
              incoming :=
                [{ rb := [69, 0, 0, 28, 0, 0, 0, 0, 64, 1, 0, 0, 10, 0, 0, 2, 10, 0, 0, 1,
                          0, 0, 255, 253, 0, 0, 0, 2], now := 2001000 }],
              readError := "read ip 10.0.0.2: i/o timeout" }, ?_, rfl⟩
    intro d hd
    simp only [List.mem_singleton] at hd
    subst hd
    unfold IsBytes
    decide
  ⟨⟨hnet, by decide⟩,
    (unmatchable_requests 65536 [SendResult.err "read ip 10.0.0.2: i/o timeout"] hnet
      (by decide)).2.2.2⟩

end Ping
